import Mathlib

/-!
Verification of the dreamcast repository: the gdi track-layout model and
codec (package gdi), the IP.BIN table-of-contents decoder, and the redump
layout converter (package dreamcast).  Go ints are embedded as unbounded
`Int` (with explicit int64 range side conditions where the code's behaviour
depends on them), byte slices as `List Nat`, and strings as `String` /
`List Char`.  Fallible operations return `Option` or `Except`.
-/

namespace gdi

/-- `gdi.SectorSize`: the standard sector size used for tracks. -/
def SectorSize : Int := 2352

/-- `gdi.TrackThreeStart`: the starting sector for track three. -/
def TrackThreeStart : Int := 45000

/-- `gdi.minTracks`. -/
def minTracks : Int := 3

/-- `gdi.maxTracks`. -/
def maxTracks : Int := 99

/-- `gdi.TypeAudio` (iota 0 of `gdi.Type`). -/
def TypeAudio : Int := 0

/-- `gdi.TypeData` (iota 4 of `gdi.Type`). -/
def TypeData : Int := 4

/-- `gdi.NoWhitespace` flag bit. -/
def NoWhitespace : Int := 1

/-- `gdi.Track`: a single track within a GDI file. -/
structure Track where
  Number : Int
  Start : Int
  «Type» : Int
  SectorSize : Int
  Name : String
  Zero : Int
deriving DecidableEq, Repr

/-- The named error values of the gdi package, plus `numError` standing for
the (unwrapped) `strconv` parse errors surfaced by the codec. -/
inductive Error where
  | invalidTrack
  | notEnoughTracks
  | tooManyTracks
  | inconsistentTracks
  | invalidStart
  | invalidType
  | nonContinuousTracks
  | invalidSectorSize
  | fieldNotZero
  | numError
deriving DecidableEq, Repr

/-- Per-track body of the loop in `File.validate` (src/game.go 460-488):
the `switch i` with its fallthrough from `case 2` into `case 0`, then the
contiguity, sector-size and reserved-field checks, in source order. -/
def validateTrack (i : Nat) (t : Track) : Option Error :=
  if i = 2 ∧ t.Start ≠ TrackThreeStart then some .invalidStart
  else if (i = 0 ∨ i = 2) ∧ t.«Type» ≠ TypeData then some .invalidType
  else if i = 1 ∧ t.«Type» ≠ TypeAudio then some .invalidType
  else if t.Number ≠ (i : Int) + 1 then some .nonContinuousTracks
  else if t.SectorSize ≠ SectorSize then some .invalidSectorSize
  else if t.Zero ≠ 0 then some .fieldNotZero
  else none

/-- The `for i, track := range f.Tracks` loop of `File.validate`, stopping
at the first violated rule. -/
def validateFrom : Nat → List Track → Option Error
  | _, [] => none
  | i, t :: ts =>
    match validateTrack i t with
    | some e => some e
    | none => validateFrom (i + 1) ts

/-- `gdi.File`: a GDI file. -/
structure File where
  Count : Int
  Tracks : List Track
  Flags : Int
deriving DecidableEq, Repr

/-- `File.validate` (src/game.go 447-491): count bounds, count/length
consistency, then the per-track loop. -/
def File.validate (f : File) : Option Error :=
  if f.Count < minTracks then some .notEnoughTracks
  else if f.Count > maxTracks then some .tooManyTracks
  else if (f.Tracks.length : Int) ≠ f.Count then some .inconsistentTracks
  else validateFrom 0 f.Tracks

/-- Modelled from the spec: `gdi.File.IsValid` is absent from src/ (only its
tests, examples and callers appear); per spec §3 the same rule set is
checked on both decode and encode, so validity is the success of
`validate`. -/
def File.IsValid (f : File) : Bool := f.validate = none

/-- Modelled from the spec: `gdi.Track.IsAudioTrack` is absent from src/;
per spec §3 `kind` is Audio when `type` = 0. -/
def Track.IsAudioTrack (t : Track) : Bool := t.«Type» = TypeAudio

/-- Modelled from the spec: `gdi.Track.IsDataTrack` is absent from src/;
per spec §3 `kind` is Data when `type` = 4. -/
def Track.IsDataTrack (t : Track) : Bool := t.«Type» = TypeData

/-- Modelled from the spec: `gdi.File.Copy` is absent from src/; per spec
§3 the converter "produces a modified copy, leaving the original intact",
so in a pure embedding a deep copy is the value itself. -/
def File.Copy (f : File) : File := f

end gdi

namespace gdi

/-- Decimal digit character for `d < 10`. -/
def digitChar (d : Nat) : Char := Char.ofNat (48 + d)

/-- Fuel-driven decimal printer (most significant digit first), structural
so that the kernel can evaluate it. -/
def natDigsAux : Nat → Nat → List Char → List Char
  | 0, _, acc => acc
  | fuel + 1, n, acc =>
    if n < 10 then digitChar n :: acc
    else natDigsAux fuel (n / 10) (digitChar (n % 10) :: acc)

/-- The decimal digits of `n`, as produced by Go `strconv` formatting. -/
def natDigs (n : Nat) : List Char := natDigsAux (n + 1) n []

/-- Go `%d` formatting of an `int` value, as a character list. -/
def intChars (n : Int) : List Char :=
  if n < 0 then '-' :: natDigs (-n).toNat else natDigs n.toNat

/-- Width used by `MarshalText` for a column:
`len(strconv.FormatUint(uint64(v), 10))`, the uint64 conversion being
reduction mod 2^64. -/
def uintWidth (v : Int) : Nat := (natDigs ((v % (2 ^ 64 : Int)).toNat)).length

/-- Go `%*d` padding: left-pad with spaces to the requested width. -/
def padLeft (w : Nat) (s : List Char) : List Char :=
  List.replicate (w - s.length) ' ' ++ s

/-- `unicode.IsSpace` (the White_Space property). -/
def goIsSpace (c : Char) : Bool :=
  c.toNat = 32 ∨ (9 ≤ c.toNat ∧ c.toNat ≤ 13) ∨ c.toNat = 0x85 ∨
  c.toNat = 0xa0 ∨ c.toNat = 0x1680 ∨ (0x2000 ≤ c.toNat ∧ c.toNat ≤ 0x200a) ∨
  c.toNat = 0x2028 ∨ c.toNat = 0x2029 ∨ c.toNat = 0x202f ∨
  c.toNat = 0x205f ∨ c.toNat = 0x3000

/-- One pass of `strings.FieldsFunc` with the quote-toggling closure of
`gdi.split` (src/game.go 431-445): a space outside quotes separates fields,
a double quote toggles the `withinQuotes` state and is kept in the field. -/
def fieldsRun : List Char → Bool → List Char → List (List Char)
  | [], _, acc => if acc = [] then [] else [acc.reverse]
  | c :: cs, wq, acc =>
    let wq2 := if c = '"' then !wq else wq
    if goIsSpace c ∧ ¬wq2 then
      (if acc = [] then [] else [acc.reverse]) ++ fieldsRun cs wq2 []
    else fieldsRun cs wq2 (c :: acc)

/-- Final value of the `withinQuotes` flag after the closure has seen the
whole string. -/
def quoteState (s : List Char) : Bool :=
  s.foldl (fun wq c => if c = '"' then !wq else wq) false

/-- `gdi.split`: fields of a track line; unbalanced quoting or a field
count other than 6 is `errInvalidTrack`. -/
def split (s : List Char) : Except Error (List (List Char)) :=
  let fields := fieldsRun s false []
  if quoteState s ∨ fields.length ≠ 6 then .error .invalidTrack
  else .ok fields

/-- `strings.Trim(s, quote)`: remove all leading and trailing double
quotes. -/
def trimQuotes (s : List Char) : List Char :=
  ((s.dropWhile (· = '"')).reverse.dropWhile (· = '"')).reverse

/-- Whether `c` is an ASCII decimal digit. -/
def isDigitCh (c : Char) : Bool := 48 ≤ c.toNat ∧ c.toNat ≤ 57

/-- Numeric value accumulated over a digit list, as `strconv` does. -/
def parseDigs (ds : List Char) : Nat :=
  ds.foldl (fun a c => 10 * a + (c.toNat - 48)) 0

/-- `strconv.Atoi`: optional single sign, one or more decimal digits, and
an int64 range check; every failure (including range) is an error,
modelled as `none`. -/
def atoi (s : List Char) : Option Int :=
  match s with
  | [] => none
  | c :: cs =>
    let ds := if c = '-' ∨ c = '+' then cs else s
    if ds = [] ∨ ¬ds.all isDigitCh then none
    else
      let v : Int := if c = '-' then -(parseDigs ds : Int) else (parseDigs ds : Int)
      if v < -(2 ^ 63 : Int) ∨ (2 ^ 63 : Int) ≤ v then none else some v

/-- Name rendering in `MarshalText`: wrapped in double quotes iff it
contains a space (`strings.ContainsAny(name, " ")`). -/
def quoteName (name : String) : List Char :=
  if name.data.contains ' ' then '"' :: (name.data ++ ['"']) else name.data

/-- One track line of `MarshalText` (without the trailing newline):
`"%*d %*d %d %d %s %d"`. -/
def trackLine (nw sw : Nat) (t : Track) : List Char :=
  padLeft nw (intChars t.Number) ++ ' ' :: (padLeft sw (intChars t.Start) ++
    ' ' :: (intChars t.«Type» ++ ' ' :: (intChars t.SectorSize ++
      ' ' :: (quoteName t.Name ++ ' ' :: intChars t.Zero))))

/-- A default track, standing for Go zero values at indexing that the
validated code never reaches. -/
def defTrack : Track := ⟨0, 0, 0, 0, "", 0⟩

/-- The emitted text of `MarshalText` for given column widths: the count
line (`len(f.Tracks)`) followed by one line per track. -/
def marshalBody (nw sw : Nat) (f : File) : List Char :=
  (natDigs f.Tracks.length ++ ['\n']) ++
    (f.Tracks.map fun t => trackLine nw sw t ++ ['\n']).flatten

/-- `File.MarshalText` (src/game.go 494-523): validate, compute the two
column widths from the last track (forced to 1 under the `NoWhitespace`
flag), then emit the count line followed by one line per track. -/
def File.MarshalText (f : File) : Except Error (List Char) :=
  match f.validate with
  | some e => .error e
  | none =>
    let last := f.Tracks.getLastD defTrack
    let nw := if Int.land f.Flags NoWhitespace ≠ 0 then 1 else uintWidth last.Number
    let sw := if Int.land f.Flags NoWhitespace ≠ 0 then 1 else uintWidth last.Start
    .ok (marshalBody nw sw f)

/-- `String.splitOn`-style split at newlines (the result is nonempty and
keeps empty segments). -/
def splitNl : List Char → List (List Char)
  | [] => [[]]
  | c :: cs =>
    if c = '\n' then [] :: splitNl cs
    else
      match splitNl cs with
      | l :: ls => (c :: l) :: ls
      | [] => [[c]]

/-- `bufio.ScanLines` drops one carriage return before the newline. -/
def dropCR (l : List Char) : List Char :=
  if l.getLast? = some '\x0d' then l.dropLast else l

/-- The token stream of a `bufio.Scanner` with `ScanLines`: newline-split
segments, a trailing newline yielding no final empty token. -/
def scanLines (text : List Char) : List (List Char) :=
  let ls := splitNl text
  (if ls.getLast? = some [] then ls.dropLast else ls).map dropCR

/-- Track-line decoding in `File.UnmarshalText` (src/game.go 540-576):
split into exactly six fields, `Atoi` the numeric ones in source order,
trim quotes from the name. -/
def parseTrackLine (line : List Char) : Except Error Track :=
  match split line with
  | .error e => .error e
  | .ok [fNum, fStart, fType, fSS, fName, fZero] =>
    match atoi fNum with
    | none => .error .numError
    | some number =>
      match atoi fStart with
      | none => .error .numError
      | some start =>
        match atoi fType with
        | none => .error .numError
        | some ty =>
          match atoi fSS with
          | none => .error .numError
          | some ss =>
            match atoi fZero with
            | none => .error .numError
            | some zero =>
              .ok ⟨number, start, ty, ss, String.mk (trimQuotes fName), zero⟩
  | .ok _ => .error .invalidTrack

/-- The per-line loop of `UnmarshalText` after the count line: each parsed
track is appended to the receiver; the first parse error stops the loop,
leaving the receiver as accumulated so far; when the lines are exhausted
the receiver is validated. -/
def unmarshalTracks (f : File) : List (List Char) → File × Option Error
  | [] => (f, f.validate)
  | l :: ls =>
    match parseTrackLine l with
    | .error e => (f, some e)
    | .ok t => unmarshalTracks { f with Tracks := f.Tracks ++ [t] } ls

/-- `File.UnmarshalText` (src/game.go 526-585) as a function from the
input text to the final receiver state plus the returned error (the Go
method mutates its receiver after clearing it, so the result state is a
function of the text alone). -/
def File.UnmarshalText (text : List Char) : File × Option Error :=
  let f0 : File := ⟨0, [], 0⟩
  match scanLines text with
  | [] => (f0, f0.validate)
  | l :: ls =>
    match atoi l with
    | none => (f0, some .numError)
    | some total => unmarshalTracks { f0 with Count := total } ls

/-- decode ∘ encode: `some` of the decoded file when both directions
succeed. -/
def roundTrip (f : File) : Option File :=
  match f.MarshalText with
  | .error _ => none
  | .ok text =>
    match File.UnmarshalText text with
    | (g, none) => some g
    | (_, some _) => none

end gdi

namespace dreamcast

/-- `dreamcast.pauseData` (sectors). -/
def pauseData : Int := 150

/-- `dreamcast.preGap` (sectors). -/
def preGap : Int := 75

/-- `dreamcast.ipBinLength`: the exact size of the IP.BIN block. -/
def ipBinLength : Nat := 0x8000

/-- `dreamcast.lastSector`. -/
def lastSector : Int := 0x861b4

/-- `dreamcast.offsetTOC`. -/
def offsetTOC : Nat := 0x100

/-- `dreamcast.typeAudio` for TOC entries. -/
def typeAudio : Int := 0x01

/-- `dreamcast.typeData` for TOC entries. -/
def typeData : Int := 0x41

/-- `dreamcast.Track`: a TOC entry of the IP.BIN initial program. -/
structure Track where
  Start : Int
  Length : Int
  «Type» : Int
deriving DecidableEq, Repr

/-- `Track.IsAudioTrack` (src/unnamed/part_002). -/
def Track.IsAudioTrack (t : Track) : Bool := t.«Type» = typeAudio

/-- `Track.IsDataTrack` (src/unnamed/part_002). -/
def Track.IsDataTrack (t : Track) : Bool := t.«Type» = typeData

/-- The `Track` built from loop iteration `i` of the TOC scan in
`IPBin.UnmarshalBinary`: the three packed little-endian start bytes are at
`offsetTOC+4+i*4 .. offsetTOC+6+i*4` and the type byte at
`offsetTOC+7+i*4`. -/
def tocSlot (b : List Nat) (i : Nat) : Track :=
  { Start := (b.getD (offsetTOC + 4 + i * 4) 0 : Int) +
      (b.getD (offsetTOC + 5 + i * 4) 0 : Int) * 2 ^ 8 +
      (b.getD (offsetTOC + 6 + i * 4) 0 : Int) * 2 ^ 16 - pauseData
    Length := 0
    «Type» := (b.getD (offsetTOC + 7 + i * 4) 0 : Int) }

/-- The `for i := 0; i < 97; i++` TOC scan of `IPBin.UnmarshalBinary`
(src/unnamed/part_002 lines 177-186), breaking at the first entry that is
neither audio nor data. -/
def tocScanFrom (b : List Nat) : Nat → Nat → List Track
  | _, 0 => []
  | i, fuel + 1 =>
    let track := tocSlot b i
    if ¬track.IsAudioTrack ∧ ¬track.IsDataTrack then []
    else track :: tocScanFrom b (i + 1) fuel

/-- The complete TOC scan: 97 iterations starting at `i = 0`. -/
def tocScan (b : List Nat) : List Track := tocScanFrom b 0 97

/-- The length-assignment pass over a nonempty TOC (src/unnamed/part_002
lines 188-191): every entry but the last gets the gap to the next start
minus `pauseData`; the last gets `lastSector` minus its start minus
`pauseData`. -/
def assignLengths : List Track → List Track
  | [] => []
  | [t] => [{ t with Length := lastSector - t.Start - pauseData }]
  | t :: u :: rest =>
    { t with Length := u.Start - t.Start - pauseData } :: assignLengths (u :: rest)

/-- The length computation of `IPBin.UnmarshalBinary` (lines 188-191):
on an empty TOC the final statement indexes `ip.TOC[-1]`, an
out-of-range access that panics in Go; `none` models that panic. -/
def fixLengths (toc : List Track) : Option (List Track) :=
  match toc with
  | [] => none
  | _ :: _ => some (assignLengths toc)

/-- The TOC portion of `IPBin.UnmarshalBinary` (src/unnamed/part_002 lines
177-193): the scan followed by the length computation.  The earlier header
fields of the method read only bytes below `offsetTOC` and are independent
of this phase; `none` models the out-of-range panic. -/
def tocDecode (b : List Nat) : Option (List Track) := fixLengths (tocScan b)

end dreamcast

namespace dreamcast

/-- The named errors of package dreamcast used by the game logic, plus
`ioError` standing for any error propagated unmodified from the
byte-provider (missing file, short read). -/
inductive GameError where
  | invalidGame
  | invalidSize
  | inconsistentAudioTracks
  | ioError
deriving DecidableEq, Repr

/-- `dreamcast.Game` restricted to what the conversion logic reads: the
parsed GDI file and the byte-provider, modelled as a map from a track
name to the file contents (spec §6: a consistent source of streams and
sizes). -/
structure Game where
  gdiFile : gdi.File
  files : String → Option (List Nat)

/-- The per-track body of `Game.isValid` (src/game.go 181-190): look up
each track file size and require it to be a whole number of sectors. -/
def sizeCheck (g : Game) : List gdi.Track → Option GameError
  | [] => none
  | t :: ts =>
    match g.files t.Name with
    | none => some .ioError
    | some bytes =>
      if (bytes.length : Int) % gdi.SectorSize ≠ 0 then some .invalidSize
      else sizeCheck g ts

/-- `Game.isValid` (src/game.go 176-193). -/
def Game.isValid (g : Game) : Option GameError :=
  if ¬g.gdiFile.IsValid then some .invalidGame
  else sizeCheck g g.gdiFile.Tracks

/-- The counting loop of `Game.isRedump` (src/game.go 200-224): for every
audio track, read its first 16 bytes (failing like `io.CopyN` when fewer
are available) and count it as redump-style when they are all zero. -/
def redumpCounts (g : Game) : List gdi.Track → Nat × Nat → Except GameError (Nat × Nat)
  | [], counts => .ok counts
  | t :: ts, (a, r) =>
    if ¬t.IsAudioTrack then redumpCounts g ts (a, r)
    else
      match g.files t.Name with
      | none => .error .ioError
      | some bytes =>
        if bytes.length < 16 then .error .ioError
        else if bytes.take 16 = List.replicate 16 0 then redumpCounts g ts (a + 1, r + 1)
        else redumpCounts g ts (a + 1, r)

/-- `Game.isRedump` (src/game.go 195-231): validity first, then the audio
track census; some-but-not-all agreement is the inconsistency error,
otherwise the result is whether all audio tracks counted as redump. -/
def Game.isRedump (g : Game) : Except GameError Bool :=
  match g.isValid with
  | some e => .error e
  | none =>
    match redumpCounts g g.gdiFile.Tracks (0, 0) with
    | .error e => .error e
    | .ok (a, r) =>
      if 0 < r ∧ r < a then .error .inconsistentAudioTracks
      else .ok (r = a)

/-- The writer configuration fields consulted by `Game.Write`. -/
structure WriterConfig where
  GDIFile : String
  CueFile : String
  TrackRename : Option (gdi.Track → String)
  TrimWhitespace : Bool

/-- The byte-level effect of one iteration of the copy loop in
`Game.Write`: `pregapToPrev` is what `io.CopyN(dst, src, preGap*SectorSize)`
appends to the still-open previous destination, `skipped` what the next
`CopyN` discards, and `copied` what `io.Copy` streams into `destName`. -/
structure TrackAction where
  pregapToPrev : List Nat
  skipped : List Nat
  destName : String
  copied : List Nat
deriving DecidableEq, Repr

/-- The per-track loop of `Game.Write` (src/game.go 270-312): under the
redump style, a final data track past track 3 first copies a 75-sector
pregap (into the previous destination) and advances its start by `preGap`,
falling through to the audio-pause rule that discards 150 sectors and
advances the start by `pauseData`; an audio track only does the latter.
Renaming applies to the original track.  Like `io.CopyN`, a source too
short for a requested copy or skip is an error. -/
def writeTracks (g : Game) (cfg : WriterConfig) (isR : Bool) :
    List gdi.Track → Except GameError (List (gdi.Track × TrackAction))
  | [] => .ok []
  | t :: ts =>
    match g.files t.Name with
    | none => .error .ioError
    | some src =>
      let psa : Nat × Nat × Int :=
        if isR then
          if t.IsDataTrack ∧ t.Number = g.gdiFile.Count ∧ 3 < t.Number then
            ((preGap * gdi.SectorSize).toNat, (pauseData * gdi.SectorSize).toNat,
              preGap + pauseData)
          else if t.IsAudioTrack then
            (0, (pauseData * gdi.SectorSize).toNat, pauseData)
          else (0, 0, 0)
        else (0, 0, 0)
      if src.length < psa.1 then .error .ioError
      else if src.length - psa.1 < psa.2.1 then .error .ioError
      else
        let name2 :=
          match cfg.TrackRename with
          | some rn => rn t
          | none => t.Name
        let t2 : gdi.Track :=
          { t with Start := t.Start + psa.2.2, Name := name2 }
        let act : TrackAction :=
          ⟨src.take psa.1, (src.drop psa.1).take psa.2.1, name2, src.drop (psa.1 + psa.2.1)⟩
        match writeTracks g cfg isR ts with
        | .error e => .error e
        | .ok rest => .ok ((t2, act) :: rest)

/-- `Game.Write` (src/game.go 261-329) up to the optional descriptor
emission: detect the style, copy the GDI file, and run the per-track copy
loop, returning the rewritten layout and the per-track byte actions. -/
def Game.Write (g : Game) (cfg : WriterConfig) :
    Except GameError (gdi.File × List TrackAction) :=
  match g.isRedump with
  | .error e => .error e
  | .ok isR =>
    let gdiFile := g.gdiFile.Copy
    match writeTracks g cfg isR gdiFile.Tracks with
    | .error e => .error e
    | .ok pairs => .ok ({ gdiFile with Tracks := pairs.map Prod.fst }, pairs.map Prod.snd)

end dreamcast

namespace gdi

/-- Spec reading of §3 validation for claim C5: the ordered list of
(violated?, named error) pairs — count bounds, count/length consistency,
then per-track in track order: position-specific start/type checks,
contiguity, sector size, reserved field. -/
def trackRules (i : Nat) (t : Track) : List (Bool × Error) :=
  (if i = 2 then [(decide (t.Start ≠ TrackThreeStart), Error.invalidStart)] else []) ++
  (if i = 0 ∨ i = 2 then [(decide (t.«Type» ≠ TypeData), Error.invalidType)] else []) ++
  (if i = 1 then [(decide (t.«Type» ≠ TypeAudio), Error.invalidType)] else []) ++
  [(decide (t.Number ≠ (i : Int) + 1), Error.nonContinuousTracks),
   (decide (t.SectorSize ≠ SectorSize), Error.invalidSectorSize),
   (decide (t.Zero ≠ 0), Error.fieldNotZero)]

/-- The whole ordered rule list of spec §3 for a file. -/
def ruleList (f : File) : List (Bool × Error) :=
  [(decide (f.Count < minTracks), Error.notEnoughTracks),
   (decide (f.Count > maxTracks), Error.tooManyTracks),
   (decide ((f.Tracks.length : Int) ≠ f.Count), Error.inconsistentTracks)] ++
  (f.Tracks.enum.flatMap fun p => trackRules p.1 p.2)

/-- First-match evaluation of an ordered rule list: the named error of the
first violated rule, if any. -/
def firstViolation : List (Bool × Error) → Option Error
  | [] => none
  | (b, e) :: rs => if b then some e else firstViolation rs

/-- Spec reading for claim C6: the width of the longest printed `number`
value in the whole list. -/
def colWidthNumber (f : File) : Nat :=
  (f.Tracks.map fun t => (intChars t.Number).length).foldr max 0

/-- Spec reading for claim C6: the width of the longest printed `start`
value in the whole list. -/
def colWidthStart (f : File) : Nat :=
  (f.Tracks.map fun t => (intChars t.Start).length).foldr max 0

/-- Spec reading for claim C6: the encoding that right-aligns the number
and start columns to the width of the longest value of that column. -/
def marshalAlignedSpec (f : File) : List Char :=
  marshalBody (colWidthNumber f) (colWidthStart f) f

/-- Spec reading for claim C6: a track line with no column padding at
all. -/
def trackLineNoPad (t : Track) : List Char :=
  intChars t.Number ++ ' ' :: (intChars t.Start ++ ' ' :: (intChars t.«Type» ++
    ' ' :: (intChars t.SectorSize ++ ' ' :: (quoteName t.Name ++
      ' ' :: intChars t.Zero))))

/-- Spec reading for claim C6: the encoding with unpadded columns, used
when the whitespace-trimming flag is set. -/
def marshalNoPadSpec (f : File) : List Char :=
  (natDigs f.Tracks.length ++ ['\n']) ++
    (f.Tracks.map fun t => trackLineNoPad t ++ ['\n']).flatten

end gdi

namespace dreamcast

/-- Spec reading of the TOC scan for claim C3, parametrised by the offset
of the first 4-byte slot: the entry of slot `i` takes its start from the 3
packed little-endian bytes minus the 150-sector pause constant and its
type from the slot's 4th byte. -/
def specSlotEntry (off : Nat) (b : List Nat) (i : Nat) : Track :=
  { Start := (b.getD (off + 4 * i) 0 : Int) +
      (b.getD (off + 4 * i + 1) 0 : Int) * 2 ^ 8 +
      (b.getD (off + 4 * i + 2) 0 : Int) * 2 ^ 16 - 150
    Length := 0
    «Type» := (b.getD (off + 4 * i + 3) 0 : Int) }

/-- Spec reading for claim C3: up to 97 entries are read and the scan
stops at the first entry whose type is neither Audio nor Data. -/
def specRetained (off : Nat) (b : List Nat) : List Track :=
  ((List.range 97).map (specSlotEntry off b)).takeWhile
    fun t => t.IsAudioTrack || t.IsDataTrack

/-- Spec reading for claim C3: every retained entry except the last gets
length equal to the next entry's start minus its own start minus 150, and
the last entry is measured against the final-sector constant. -/
def specAssignLengths (kept : List Track) : List Track :=
  List.zipWith (fun t next => { t with Length := next.Start - t.Start - 150 })
    kept (kept.drop 1 ++ [{ Start := lastSector, Length := 0, «Type» := 0 }])

/-- Claim C3 as stated: the TOC decoded from 4-byte slots starting at
offset 0x100. -/
def tocSpecClaim (b : List Nat) : List Track :=
  specAssignLengths (specRetained offsetTOC b)

/-- The amended reading: 4-byte slots starting at offset 0x104 (the slot
at 0x100 is never read). -/
def tocSpecAmended (b : List Nat) : List Track :=
  specAssignLengths (specRetained (offsetTOC + 4) b)

/-- Spec reading of the redump conversion for claim C8: an audio track's
start advances by 150; a final data track past track 3 advances by 75 for
the pregap and a further 150 for the pause. -/
def redumpStartAdjust (count : Int) (t : gdi.Track) : gdi.Track :=
  if t.IsAudioTrack then { t with Start := t.Start + 150 }
  else if t.IsDataTrack ∧ t.Number = count ∧ 3 < t.Number then
    { t with Start := t.Start + 75 + 150 }
  else t

/-- The output filename of a track under the optional renaming function. -/
def renameTrack (cfg : WriterConfig) (t : gdi.Track) : String :=
  match cfg.TrackRename with
  | some rn => rn t
  | none => t.Name

/-- Spec reading for claim C8: the rewritten catalogue entry of one
track. -/
def expectedTrack (cfg : WriterConfig) (count : Int) (t : gdi.Track) : gdi.Track :=
  { redumpStartAdjust count t with Name := renameTrack cfg t }

/-- Spec reading for claim C8: the byte plan of one track under the redump
conversion — an audio track drops its leading 150 sectors (352800 bytes);
a final data track past track 3 first copies a 75-sector pregap (176400
bytes) and then drops 150 sectors; anything else is copied verbatim. -/
def expectedAction (g : Game) (cfg : WriterConfig) (count : Int) (t : gdi.Track) : TrackAction :=
  let src := (g.files t.Name).getD []
  if t.IsAudioTrack then
    ⟨[], src.take 352800, renameTrack cfg t, src.drop 352800⟩
  else if t.IsDataTrack ∧ t.Number = count ∧ 3 < t.Number then
    ⟨src.take 176400, (src.drop 176400).take 352800, renameTrack cfg t, src.drop 529200⟩
  else ⟨[], [], renameTrack cfg t, src⟩

end dreamcast

namespace gdi

/-- A parse-only pass over track lines: `some` of the parsed tracks when
every line parses. -/
def parsedTracks : List (List Char) → Option (List Track)
  | [] => some []
  | l :: ls =>
    match parseTrackLine l with
    | .error _ => none
    | .ok t => (parsedTracks ls).map (t :: ·)

/-- A parse-only pass over the whole text: the file accumulated by
`UnmarshalText` when the count line and every track line parse. -/
def parsedFile (text : List Char) : Option File :=
  match scanLines text with
  | [] => none
  | l :: ls =>
    match atoi l with
    | none => none
    | some total => (parsedTracks ls).map fun ts => ⟨total, ts, 0⟩

/-- The canonical valid three-track layout from the repository tests. -/
def validThree : File :=
  ⟨3, [⟨1, 0, 4, 2352, "track01.bin", 0⟩,
       ⟨2, 756, 0, 2352, "track02.raw", 0⟩,
       ⟨3, 45000, 4, 2352, "track03.bin", 0⟩], 0⟩

/-- A structurally valid file whose first track name is a lone double
quote (validation never inspects names). -/
def quoteNameFile : File :=
  ⟨3, [⟨1, 0, 4, 2352, "\"", 0⟩,
       ⟨2, 756, 0, 2352, "track02.raw", 0⟩,
       ⟨3, 45000, 4, 2352, "track03.bin", 0⟩], 0⟩

/-- A structurally valid four-track file whose fourth track has type 7,
outside {Audio, Data}. -/
def typeSevenFile : File :=
  ⟨4, [⟨1, 0, 4, 2352, "track01.bin", 0⟩,
       ⟨2, 756, 0, 2352, "track02.raw", 0⟩,
       ⟨3, 45000, 4, 2352, "track03.bin", 0⟩,
       ⟨4, 46000, 7, 2352, "track04.raw", 0⟩], 0⟩

/-- A structurally valid four-track file whose last track start (7) is
narrower than track three's 45000. -/
def shortLastFile : File :=
  ⟨4, [⟨1, 0, 4, 2352, "track01.bin", 0⟩,
       ⟨2, 756, 0, 2352, "track02.raw", 0⟩,
       ⟨3, 45000, 4, 2352, "track03.bin", 0⟩,
       ⟨4, 7, 0, 2352, "track04.raw", 0⟩], 0⟩

/-- A track-count line of 3 followed by a single parsable track line. -/
def inconsistentText : List Char := "3\n1 0 4 2352 track01.bin 0\n".data

end gdi

namespace dreamcast

/-- A 32 KiB buffer whose slot at 0x100 is a data entry (start bytes
1,0,0, type 0x41) and whose slot at 0x104 is an audio entry (start bytes
2,0,0, type 0x01); everything else is zero. -/
def tocProbe : List Nat :=
  List.replicate 256 0 ++ [1, 0, 0, 0x41, 2, 0, 0, 1] ++ List.replicate 32504 0

/-- An all-zero 32 KiB buffer. -/
def zeroBuf : List Nat := List.replicate 32768 0

/-- A game over the canonical three-track layout whose track payloads are
all-zero files of 225 sectors (529200 bytes) each. -/
def zeroGame : Game :=
  ⟨gdi.validThree, fun n =>
    if n = "track01.bin" ∨ n = "track02.raw" ∨ n = "track03.bin" then
      some (List.replicate 529200 0)
    else none⟩

/-- A valid four-track layout with audio tracks at positions 2 and 4. -/
def twoAudioFile : gdi.File :=
  ⟨4, [⟨1, 0, 4, 2352, "t1", 0⟩,
       ⟨2, 756, 0, 2352, "t2", 0⟩,
       ⟨3, 45000, 4, 2352, "t3", 0⟩,
       ⟨4, 46000, 0, 2352, "t4", 0⟩], 0⟩

/-- A game over `twoAudioFile` whose first audio track begins with 16 zero
bytes and whose second does not. -/
def mixedGame : Game :=
  ⟨twoAudioFile, fun n =>
    if n = "t1" ∨ n = "t2" ∨ n = "t3" then some (List.replicate 2352 0)
    else if n = "t4" then some (7 :: List.replicate 2351 0)
    else none⟩

/-- A writer configuration with no renaming. -/
def plainConfig : WriterConfig := ⟨"out.gdi", "", none, false⟩

end dreamcast

namespace dreamcast

/-- Whether the first 16 bytes of a track's payload are all zero (a
missing file counts as not). -/
def zero16 (g : Game) (t : gdi.Track) : Bool :=
  match g.files t.Name with
  | some bytes => bytes.take 16 = List.replicate 16 0
  | none => false

/-- Every audio track of the game has an all-zero 16-byte head. -/
def audioAllZero (g : Game) : Bool :=
  g.gdiFile.Tracks.all fun t => !t.IsAudioTrack || zero16 g t

/-- No audio track of the game has an all-zero 16-byte head. -/
def audioNoneZero (g : Game) : Bool :=
  g.gdiFile.Tracks.all fun t => !t.IsAudioTrack || !zero16 g t

/-- The number of audio tracks in a track list. -/
def countAudio (ts : List gdi.Track) : Nat :=
  (ts.filter fun t => t.IsAudioTrack).length

/-- The number of audio tracks in a track list whose payload head is all
zero for this game. -/
def countZero (g : Game) (ts : List gdi.Track) : Nat :=
  (ts.filter fun t => t.IsAudioTrack && zero16 g t).length

end dreamcast

namespace gdi

/-- A name the textual codec can carry faithfully: nonempty, free of
double quotes, and with no whitespace other than plain spaces. -/
def safeName (s : String) : Prop :=
  s.data ≠ [] ∧ '"' ∉ s.data ∧ ∀ c ∈ s.data, goIsSpace c = true → c = ' '

/-- The value range of Go's 64-bit `int`. -/
def inInt64 (n : Int) : Prop := -(2 ^ 63) ≤ n ∧ n < 2 ^ 63

end gdi

/-- Decidable equality of `Except` outcomes, used to evaluate the codec on
concrete inputs. -/
instance {e a : Type} [DecidableEq e] [DecidableEq a] : DecidableEq (Except e a) := fun x y =>
  match x, y with
  | .error u, .error v =>
    if h : u = v then .isTrue (by rw [h]) else .isFalse (fun he => h (Except.error.inj he))
  | .ok u, .ok v =>
    if h : u = v then .isTrue (by rw [h]) else .isFalse (fun he => h (Except.ok.inj he))
  | .error _, .ok _ => .isFalse (fun he => Except.noConfusion he)
  | .ok _, .error _ => .isFalse (fun he => Except.noConfusion he)

namespace gdi

theorem validateTrack_none_iff (i : Nat) (t : Track) :
    validateTrack i t = none ↔
      ((i = 2 → t.Start = TrackThreeStart) ∧
       ((i = 0 ∨ i = 2) → t.«Type» = TypeData) ∧
       (i = 1 → t.«Type» = TypeAudio) ∧
       t.Number = (i : Int) + 1 ∧ t.SectorSize = SectorSize ∧ t.Zero = 0) := by
  unfold validateTrack
  split_ifs <;> simp_all

theorem validateFrom_none {ts : List Track} :
    ∀ {i : Nat}, validateFrom i ts = none →
      ∀ j, j < ts.length → validateTrack (i + j) (ts.getD j defTrack) = none := by
  induction ts with
  | nil => intro i _ j hj; simp at hj
  | cons t ts ih =>
    intro i h j hj
    unfold validateFrom at h
    cases hvt : validateTrack i t with
    | some e => rw [hvt] at h; simp at h
    | none =>
      rw [hvt] at h
      cases j with
      | zero => simpa using hvt
      | succ j =>
        have h2 := ih h j (by simpa using hj)
        have e : i + 1 + j = i + (j + 1) := by omega
        rw [e] at h2
        simpa using h2

theorem validate_none_facts {f : File} (h : f.validate = none) :
    minTracks ≤ f.Count ∧ f.Count ≤ maxTracks ∧ (f.Tracks.length : Int) = f.Count ∧
      ∀ j, j < f.Tracks.length → validateTrack j (f.Tracks.getD j defTrack) = none := by
  unfold File.validate at h
  split_ifs at h with h1 h2 h3
  simp only [minTracks, maxTracks] at h1 h2 ⊢
  refine ⟨by omega, by omega, by omega, ?_⟩
  have := validateFrom_none (i := 0) h
  simpa using this

end gdi

namespace gdi

/-- C4 (counterexample): a structurally valid four-track file whose fourth
track has type 7 — outside {Audio = 0, Data = 4} — passes `validate`, so a
reserved type value is not rejected at every position, contrary to the
claim. -/
theorem c4_type_validation_counterexample :
    typeSevenFile.validate = none ∧
      (⟨4, 46000, 7, 2352, "track04.raw", 0⟩ : Track) ∈ typeSevenFile.Tracks ∧
      (7 : Int) ≠ TypeAudio ∧ (7 : Int) ≠ TypeData := by decide

/-- C4 (amended): the structural validation run by both `MarshalText` and
`UnmarshalText` constrains track types only at the first three positions —
track 1 must be Data, track 2 Audio, track 3 Data — so a type value other
than 0 and 4 is rejected there; tracks beyond position 3 carry no type
constraint. -/
theorem c4_type_validation (f : File) (h : f.validate = none) :
    3 ≤ f.Tracks.length ∧
      (f.Tracks.getD 0 defTrack).«Type» = TypeData ∧
      (f.Tracks.getD 1 defTrack).«Type» = TypeAudio ∧
      (f.Tracks.getD 2 defTrack).«Type» = TypeData := by
  obtain ⟨h1, h2, h3, h4⟩ := validate_none_facts h
  have hlen : 3 ≤ f.Tracks.length := by simp only [minTracks] at h1; omega
  refine ⟨hlen, ?_, ?_, ?_⟩
  · exact ((validateTrack_none_iff 0 _).mp (h4 0 (by omega))).2.1 (Or.inl rfl)
  · exact ((validateTrack_none_iff 1 _).mp (h4 1 (by omega))).2.2.1 rfl
  · exact ((validateTrack_none_iff 2 _).mp (h4 2 (by omega))).2.1 (Or.inr rfl)

/-- Witness for C4: the canonical three-track file is valid and its first
three tracks have the mandated types. -/
theorem c4_type_validation_witness :
    validThree.validate = none ∧
      (3 ≤ validThree.Tracks.length ∧
        (validThree.Tracks.getD 0 defTrack).«Type» = TypeData ∧
        (validThree.Tracks.getD 1 defTrack).«Type» = TypeAudio ∧
        (validThree.Tracks.getD 2 defTrack).«Type» = TypeData) :=
  ⟨by decide, c4_type_validation validThree (by decide)⟩

/-- C2 (counterexample): decoding a count line of 3 followed by a single
well-formed track line fails validation with the inconsistent-count error,
yet the parsed track remains stored on the receiver — the failed decode
leaves observable partial state. -/
theorem c2_all_or_nothing_counterexample :
    (File.UnmarshalText inconsistentText).2 = some Error.inconsistentTracks ∧
      (File.UnmarshalText inconsistentText).1.Tracks =
        [⟨1, 0, 4, 2352, "track01.bin", 0⟩] := by decide

theorem unmarshalTracks_parsed {ls : List (List Char)} :
    ∀ {f : File} {ts : List Track}, parsedTracks ls = some ts →
      unmarshalTracks f ls = ({ f with Tracks := f.Tracks ++ ts },
        File.validate { f with Tracks := f.Tracks ++ ts }) := by
  induction ls with
  | nil =>
    intro f ts h
    simp [parsedTracks] at h
    subst h
    simp [unmarshalTracks]
  | cons l ls ih =>
    intro f ts h
    unfold parsedTracks at h
    unfold unmarshalTracks
    cases hp : parseTrackLine l with
    | error e => simp only [hp] at h; exact Option.noConfusion h
    | ok t =>
      simp only [hp, Option.map_eq_some'] at h
      obtain ⟨ts0, hts0, rfl⟩ := h
      simp only [hp]
      rw [ih hts0]
      simp

/-- C2 (amended): `UnmarshalText` clears the receiver on entry, so nothing
from before the call survives; but the decode is not all-or-nothing — when
every line parses, the receiver ends up holding the full accumulated count
and tracks and the returned outcome is exactly the validation of that
retained state, so on a validation failure the accumulated tracks remain
observable on the receiver. -/
theorem c2_retained_state (text : List Char) (f : File)
    (h : parsedFile text = some f) : File.UnmarshalText text = (f, f.validate) := by
  unfold parsedFile at h
  unfold File.UnmarshalText
  cases hs : scanLines text with
  | nil => rw [hs] at h; simp at h
  | cons l ls =>
    rw [hs] at h
    simp only at h ⊢
    cases ha : atoi l with
    | none => simp only [ha] at h; exact Option.noConfusion h
    | some total =>
      simp only [ha, Option.map_eq_some'] at h
      obtain ⟨ts, hts, rfl⟩ := h
      simp only [ha]
      rw [unmarshalTracks_parsed hts]
      simp

/-- Witness for C2: on the inconsistent two-line input the receiver
retains the parsed count and track, and the returned error is the
validation of that retained state. -/
theorem c2_retained_state_witness :
    parsedFile inconsistentText =
        some ⟨3, [⟨1, 0, 4, 2352, "track01.bin", 0⟩], 0⟩ ∧
      File.UnmarshalText inconsistentText =
        (⟨3, [⟨1, 0, 4, 2352, "track01.bin", 0⟩], 0⟩,
          File.validate ⟨3, [⟨1, 0, 4, 2352, "track01.bin", 0⟩], 0⟩) :=
  ⟨by decide, c2_retained_state _ _ (by decide)⟩

end gdi

namespace dreamcast

/-- C10: if the first TOC slot scanned by the decoder has a type byte that
is neither audio (0x01) nor data (0x41), the scan retains nothing and the
length computation faults — `none` here models the Go panic from indexing
`ip.TOC[len(ip.TOC)-1]` with an empty slice — instead of returning an
error, whatever the rest of the 32768-byte buffer holds. -/
theorem c10_empty_toc_panic (b : List Nat) (hlen : b.length = ipBinLength)
    (h1 : b.getD 263 0 ≠ 1) (h2 : b.getD 263 0 ≠ 0x41) :
    tocScan b = [] ∧ tocDecode b = none := by
  have e1 : ((b.getD 263 0 : Nat) : Int) ≠ 1 := by exact_mod_cast h1
  have e2 : ((b.getD 263 0 : Nat) : Int) ≠ 0x41 := by exact_mod_cast h2
  have _ := hlen
  have hscan : tocScan b = [] := by
    show tocScanFrom b 0 97 = []
    rw [show (97 : Nat) = 96 + 1 from rfl]
    unfold tocScanFrom
    rw [if_pos]
    refine ⟨?_, ?_⟩
    · simp only [tocSlot, Track.IsAudioTrack, typeAudio, offsetTOC, decide_eq_true_eq]
      simpa using e1
    · simp only [tocSlot, Track.IsDataTrack, typeData, offsetTOC, decide_eq_true_eq]
      simpa using e2
  exact ⟨hscan, by unfold tocDecode; rw [hscan]; rfl⟩

/-- Witness for C10: the all-zero 32 KiB buffer (type byte 0 in the first
scanned slot) yields an empty TOC and the faulting length computation. -/
theorem c10_empty_toc_panic_witness :
    tocScan zeroBuf = [] ∧ tocDecode zeroBuf = none :=
  c10_empty_toc_panic zeroBuf
    (by unfold zeroBuf ipBinLength; rw [List.length_replicate])
    (by decide) (by decide)

end dreamcast

namespace dreamcast

theorem specSlotEntry_eq (b : List Nat) (i : Nat) :
    specSlotEntry (offsetTOC + 4) b i = tocSlot b i := by
  unfold specSlotEntry tocSlot offsetTOC pauseData
  have e0 : 256 + 4 + 4 * i = 256 + 4 + i * 4 := by ring
  rw [e0]
  have e1 : 256 + 4 + i * 4 + 1 = 256 + 5 + i * 4 := by ring
  have e2 : 256 + 4 + i * 4 + 2 = 256 + 6 + i * 4 := by ring
  have e3 : 256 + 4 + i * 4 + 3 = 256 + 7 + i * 4 := by ring
  rw [e1, e2, e3]

theorem tocScanFrom_eq (b : List Nat) :
    ∀ (k i : Nat), ((List.range' i k).map (tocSlot b)).takeWhile
        (fun t => t.IsAudioTrack || t.IsDataTrack) = tocScanFrom b i k := by
  intro k
  induction k with
  | zero => intro i; simp [tocScanFrom]
  | succ k ih =>
    intro i
    rw [List.range'_succ, List.map_cons, List.takeWhile_cons]
    unfold tocScanFrom
    cases ha : (tocSlot b i).IsAudioTrack <;> cases hd : (tocSlot b i).IsDataTrack <;>
      simp [ha, hd, ih]

theorem specRetained_eq (b : List Nat) : specRetained (offsetTOC + 4) b = tocScan b := by
  unfold specRetained tocScan
  rw [List.range_eq_range']
  rw [List.map_congr_left fun i _ => specSlotEntry_eq b i]
  exact tocScanFrom_eq b 97 0

theorem specAssignLengths_eq (l : List Track) (h : l ≠ []) :
    specAssignLengths l = assignLengths l := by
  induction l with
  | nil => exact absurd rfl h
  | cons t rest ih =>
    cases rest with
    | nil => simp [specAssignLengths, assignLengths, pauseData]
    | cons u rest2 =>
      have ih2 := ih (by simp)
      have hspec : specAssignLengths (t :: u :: rest2) =
          { t with Length := u.Start - t.Start - 150 } :: specAssignLengths (u :: rest2) := by
        unfold specAssignLengths
        simp [List.drop_one]
      rw [hspec, ih2]
      simp [assignLengths, pauseData]

/-- C3 (counterexample): on a 32 KiB buffer that carries a data-typed slot
at 0x100 and an audio-typed slot at 0x104, the decoder's TOC differs from
the claim's reading with 4-byte slots starting at 0x100: the scan never
reads the four bytes at 0x100. -/
theorem c3_toc_scan_counterexample :
    tocProbe.length = ipBinLength ∧
      tocDecode tocProbe ≠ some (tocSpecClaim tocProbe) := by
  constructor
  · unfold tocProbe ipBinLength
    rw [List.length_append, List.length_append, List.length_replicate,
      List.length_replicate, List.length_cons, List.length_cons, List.length_cons,
      List.length_cons, List.length_cons, List.length_cons, List.length_cons,
      List.length_cons, List.length_nil]
  · decide

/-- C3 (amended): the table-of-contents scan reads 4-byte slots starting
at fixed offset 0x104 of the 32768-byte block — the four bytes at 0x100
are skipped — up to 97 entries; each entry's start is the 3 packed
little-endian bytes of its slot minus the 150-sector pause constant and
its type is the slot's 4th byte; the scan stops at the first entry whose
type is neither Audio nor Data; provided at least one entry is retained,
every entry except the last gets length equal to the next entry's start
minus its own start minus 150, and the last entry gets length 0x861b4
minus its start minus 150 (with no retained entry the length step faults,
see C10). -/
theorem c3_toc_scan (b : List Nat) (hlen : b.length = ipBinLength)
    (hne : tocScan b ≠ []) : tocDecode b = some (tocSpecAmended b) := by
  have _ := hlen
  have hamended : tocSpecAmended b = assignLengths (tocScan b) := by
    unfold tocSpecAmended
    rw [specRetained_eq, specAssignLengths_eq _ hne]
  unfold tocDecode fixLengths
  cases hsc : tocScan b with
  | nil => exact absurd hsc hne
  | cons x xs => rw [hamended, hsc]

/-- Witness for C3: the probe buffer retains one audio entry (from the
slot at 0x104) and the decoder output matches the amended reading. -/
theorem c3_toc_scan_witness :
    tocProbe.length = ipBinLength ∧ tocScan tocProbe ≠ [] ∧
      tocDecode tocProbe = some (tocSpecAmended tocProbe) := by
  refine ⟨?_, by decide, ?_⟩
  · unfold tocProbe ipBinLength
    rw [List.length_append, List.length_append, List.length_replicate,
      List.length_replicate, List.length_cons, List.length_cons, List.length_cons,
      List.length_cons, List.length_cons, List.length_cons, List.length_cons,
      List.length_cons, List.length_nil]
  · refine c3_toc_scan tocProbe ?_ (by decide)
    unfold tocProbe ipBinLength
    rw [List.length_append, List.length_append, List.length_replicate,
      List.length_replicate, List.length_cons, List.length_cons, List.length_cons,
      List.length_cons, List.length_cons, List.length_cons, List.length_cons,
      List.length_cons, List.length_nil]

end dreamcast

namespace gdi

theorem firstViolation_append (xs ys : List (Bool × Error)) :
    firstViolation (xs ++ ys) =
      match firstViolation xs with
      | some e => some e
      | none => firstViolation ys := by
  induction xs with
  | nil => rfl
  | cons p xs ih =>
    obtain ⟨b, e⟩ := p
    cases b
    · show firstViolation (xs ++ ys) =
        match firstViolation xs with
        | some e => some e
        | none => firstViolation ys
      exact ih
    · rfl

theorem validateTrack_rules (i : Nat) (t : Track) :
    validateTrack i t = firstViolation (trackRules i t) := by
  rcases i with _ | _ | _ | n <;>
    simp [validateTrack, trackRules, firstViolation]

theorem validateFrom_rules (ts : List Track) :
    ∀ i, validateFrom i ts =
      firstViolation ((List.enumFrom i ts).flatMap fun p => trackRules p.1 p.2) := by
  induction ts with
  | nil => intro i; rfl
  | cons t ts ih =>
    intro i
    rw [List.enumFrom_cons, List.flatMap_cons, firstViolation_append]
    unfold validateFrom
    rw [← validateTrack_rules]
    cases hv : validateTrack i t
    · simpa using ih (i + 1)
    · rfl

/-- C5: structural validation equals first-match evaluation of the fixed
ordered rule list of spec §3 — count below 3, count above 99, declared
count differing from the number of tracks, then per track in order:
position-specific start/type checks, contiguity, sector size, reserved
field — each rule carrying its own named error, and the first violated
rule's error is returned. -/
theorem c5_rule_order (f : File) : f.validate = firstViolation (ruleList f) := by
  have henum : f.Tracks.enum = List.enumFrom 0 f.Tracks := rfl
  unfold File.validate ruleList
  rw [List.cons_append, List.cons_append, List.cons_append, List.nil_append]
  simp only [firstViolation]
  rw [henum, ← validateFrom_rules f.Tracks 0]
  split_ifs <;> simp_all <;> omega

end gdi

namespace dreamcast

theorem countZero_le_countAudio (g : Game) (ts : List gdi.Track) :
    countZero g ts ≤ countAudio ts := by
  induction ts with
  | nil => simp [countZero, countAudio]
  | cons t ts ih =>
    unfold countZero countAudio at ih ⊢
    cases ha : t.IsAudioTrack <;> cases hz : zero16 g t <;>
      simp [List.filter_cons, ha, hz] <;> omega

theorem redumpCounts_ok (g : Game) (ts : List gdi.Track)
    (hr : ∀ t ∈ ts, t.IsAudioTrack → ∃ bytes, g.files t.Name = some bytes ∧ 16 ≤ bytes.length) :
    ∀ a r, redumpCounts g ts (a, r) = .ok (a + countAudio ts, r + countZero g ts) := by
  induction ts with
  | nil => intro a r; simp [redumpCounts, countAudio, countZero]
  | cons t ts ih =>
    intro a r
    have hrts : ∀ t ∈ ts, t.IsAudioTrack →
        ∃ bytes, g.files t.Name = some bytes ∧ 16 ≤ bytes.length :=
      fun u hu => hr u (List.mem_cons_of_mem t hu)
    unfold redumpCounts
    cases ha : t.IsAudioTrack with
    | false =>
      rw [if_pos (by simp [ha])]
      rw [ih hrts a r]
      unfold countAudio countZero
      simp [List.filter_cons, ha]
    | true =>
      rw [if_neg (by simp [ha])]
      obtain ⟨bytes, hb, hlen⟩ := hr t (List.mem_cons_self t ts) ha
      simp only [hb]
      rw [if_neg (by omega)]
      have hrep : List.replicate 16 (0 : Nat) =
          [0, 0, 0, 0, 0, 0, 0, 0, 0, 0, 0, 0, 0, 0, 0, 0] := rfl
      by_cases hz : List.take 16 bytes = [0, 0, 0, 0, 0, 0, 0, 0, 0, 0, 0, 0, 0, 0, 0, 0]
      · have hz16 : zero16 g t = true := by
          unfold zero16
          rw [hb, hrep]
          simpa using hz
        rw [if_pos (by rw [hrep]; exact hz), ih hrts (a + 1) (r + 1)]
        unfold countAudio countZero
        simp [List.filter_cons, ha, hz16]
        constructor <;> omega
      · have hz16 : zero16 g t = false := by
          unfold zero16
          rw [hb, hrep]
          simpa using hz
        rw [if_neg (by rw [hrep]; exact hz), ih hrts (a + 1) r]
        unfold countAudio countZero
        simp [List.filter_cons, ha, hz16]
        omega

theorem allZero_eq_counts (g : Game) (ts : List gdi.Track) :
    (ts.all fun t => !t.IsAudioTrack || zero16 g t) = true ↔
      countZero g ts = countAudio ts := by
  induction ts with
  | nil => simp [countZero, countAudio]
  | cons t ts ih =>
    have hle := countZero_le_countAudio g ts
    unfold countZero countAudio at *
    cases ha : t.IsAudioTrack <;> cases hz : zero16 g t <;>
      simp [List.filter_cons, ha, hz, List.all_cons, ih] <;> omega

theorem noneZero_eq_counts (g : Game) (ts : List gdi.Track) :
    (ts.all fun t => !t.IsAudioTrack || !zero16 g t) = true ↔ countZero g ts = 0 := by
  induction ts with
  | nil => simp [countZero]
  | cons t ts ih =>
    unfold countZero at *
    cases ha : t.IsAudioTrack <;> cases hz : zero16 g t <;>
      simp [List.filter_cons, ha, hz, List.all_cons, ih]

/-- C7: over a valid game whose audio-track payloads are readable for at
least 16 bytes, redump detection reads the first 16 bytes of every audio
track and returns true exactly when every audio track's head is all zero,
false when none is, and the inconsistent-audio-tracks error when some but
not all are — never a silent guess. -/
theorem c7_redump_detection (g : Game) (hv : g.isValid = none)
    (hr : ∀ t ∈ g.gdiFile.Tracks, t.IsAudioTrack →
      ∃ bytes, g.files t.Name = some bytes ∧ 16 ≤ bytes.length) :
    g.isRedump = (if audioAllZero g then .ok true else if audioNoneZero g then .ok false
      else .error .inconsistentAudioTracks) := by
  unfold Game.isRedump audioAllZero audioNoneZero
  simp only [hv]
  rw [redumpCounts_ok g _ hr 0 0]
  simp only [Nat.zero_add]
  have hle : countZero g g.gdiFile.Tracks ≤ countAudio g.gdiFile.Tracks :=
    countZero_le_countAudio g _
  by_cases hall : (g.gdiFile.Tracks.all fun t => !t.IsAudioTrack || zero16 g t) = true
  · have heq := (allZero_eq_counts g _).mp hall
    rw [if_pos hall, if_neg (by omega)]
    simp [heq]
  · rw [if_neg hall]
    have hRA : countZero g g.gdiFile.Tracks ≠ countAudio g.gdiFile.Tracks :=
      fun h => hall ((allZero_eq_counts g _).mpr h)
    by_cases hnone : (g.gdiFile.Tracks.all fun t => !t.IsAudioTrack || !zero16 g t) = true
    · have hR0 := (noneZero_eq_counts g _).mp hnone
      rw [if_pos hnone, if_neg (by omega)]
      simp [hRA]
    · have hR0 : countZero g g.gdiFile.Tracks ≠ 0 :=
        fun h => hnone ((noneZero_eq_counts g _).mpr h)
      rw [if_neg hnone, if_pos (by omega)]

theorem mixedGame_isValid : mixedGame.isValid = none := by
  have e1 : mixedGame.files "t1" = some (List.replicate 2352 0) := rfl
  have e2 : mixedGame.files "t2" = some (List.replicate 2352 0) := rfl
  have e3 : mixedGame.files "t3" = some (List.replicate 2352 0) := rfl
  have e4 : mixedGame.files "t4" = some (7 :: List.replicate 2351 0) := rfl
  unfold Game.isValid
  rw [if_neg (by decide)]
  show sizeCheck mixedGame (⟨1, 0, 4, 2352, "t1", 0⟩ ::
    ⟨2, 756, 0, 2352, "t2", 0⟩ :: ⟨3, 45000, 4, 2352, "t3", 0⟩ ::
    ⟨4, 46000, 0, 2352, "t4", 0⟩ :: []) = none
  simp only [sizeCheck, e1, e2, e3, e4, List.length_replicate, List.length_cons]
  norm_num [gdi.SectorSize]

/-- Witness for C7: a valid game with one all-zero-headed audio track and
one audio track with a nonzero head is reported as inconsistent. -/
theorem c7_redump_detection_witness :
    mixedGame.isValid = none ∧
      mixedGame.isRedump = .error .inconsistentAudioTracks := by
  refine ⟨mixedGame_isValid, ?_⟩
  have h := c7_redump_detection mixedGame mixedGame_isValid ?_
  · rw [h, if_neg (by decide), if_neg (by decide)]
  · intro t ht hta
    fin_cases ht
    · exact absurd hta (by decide)
    · exact ⟨List.replicate 2352 0, rfl, by rw [List.length_replicate]; norm_num⟩
    · exact absurd hta (by decide)
    · exact ⟨7 :: List.replicate 2351 0, rfl, by
        rw [List.length_cons, List.length_replicate]; norm_num⟩

end dreamcast

namespace dreamcast

theorem data_not_audio {t : gdi.Track} (h : t.IsDataTrack = true) :
    t.IsAudioTrack = false := by
  unfold gdi.Track.IsDataTrack at h
  unfold gdi.Track.IsAudioTrack
  simp [gdi.TypeData] at h
  simp [gdi.TypeAudio, h]

theorem writeTracks_ok (g : Game) (cfg : WriterConfig) (ts : List gdi.Track)
    (hf : ∀ t ∈ ts, ∃ src, g.files t.Name = some src ∧ 529200 ≤ src.length) :
    writeTracks g cfg true ts =
      .ok (ts.map fun t => (expectedTrack cfg g.gdiFile.Count t,
        expectedAction g cfg g.gdiFile.Count t)) := by
  induction ts with
  | nil => rfl
  | cons t ts ih =>
    obtain ⟨src, hsrc, hlen⟩ := hf t (List.mem_cons_self t ts)
    have hfts : ∀ u ∈ ts, ∃ s, g.files u.Name = some s ∧ 529200 ≤ s.length :=
      fun u hu => hf u (List.mem_cons_of_mem t hu)
    have hpre : ((preGap * gdi.SectorSize).toNat : Nat) = 176400 := rfl
    have hpause : ((pauseData * gdi.SectorSize).toNat : Nat) = 352800 := rfl
    have hg1 : ¬(src.length < 176400) := by omega
    have hg2 : ¬(src.length - 176400 < 352800) := by omega
    have hg4 : ¬(src.length - 0 < 352800) := by omega
    have hg5 : ¬(src.length < 0) := by omega
    have hg6 : ¬(src.length - 0 < 0) := by omega
    unfold writeTracks
    rw [ih hfts]
    simp only [hsrc, List.map_cons]
    by_cases hd : (t.IsDataTrack = true ∧ t.Number = g.gdiFile.Count ∧ (3 : Int) < t.Number)
    · have h4 : t.IsAudioTrack = false := data_not_audio hd.1
      have h3 : (3 : Int) < g.gdiFile.Count := hd.2.1 ▸ hd.2.2
      rw [if_pos (⟨hd.1, hd.2.1, hd.2.2⟩ :
        (↑t.IsDataTrack ∧ t.Number = g.gdiFile.Count ∧ (3 : Int) < t.Number))]
      rw [hpre, hpause]
      simp only [eq_self_iff_true, if_true]
      rw [if_neg hg1, if_neg hg2]
      have h225 : preGap + pauseData = (225 : Int) := rfl
      rw [h225]
      simp [expectedTrack, expectedAction, redumpStartAdjust, renameTrack, hsrc, h4,
        hd.1, hd.2.1, h3]
      omega
    · by_cases ha : t.IsAudioTrack = true
      · rw [if_neg hd, if_pos ha, hpause]
        simp only [eq_self_iff_true, if_true]
        rw [if_neg hg5, if_neg hg4]
        simp [expectedTrack, expectedAction, redumpStartAdjust, renameTrack, hsrc, ha,
          pauseData]
      · have ha2 : t.IsAudioTrack = false := by simpa using ha
        rw [if_neg hd, if_neg ha]
        simp only [eq_self_iff_true, if_true]
        rw [if_neg hg5, if_neg hg6]
        simp [expectedTrack, expectedAction, redumpStartAdjust, renameTrack, hsrc, ha2, hd]

/-- C8: on a source detected as redump-style, the conversion loop of
`Game.Write` discards the leading 150 sectors (352800 bytes) of every
audio track before copying it and adds 150 to that track's start in the
output layout, while a final data track numbered above 3 first copies a
75-sector pregap (into the still-open previous destination) and adds 75
to its start before the same 150-sector discard, both adjustments
accumulating to 225; every other track is copied verbatim with an
unchanged start. -/
theorem c8_redump_conversion (g : Game) (cfg : WriterConfig)
    (hred : g.isRedump = .ok true)
    (hf : ∀ t ∈ g.gdiFile.Tracks, ∃ src, g.files t.Name = some src ∧ 529200 ≤ src.length) :
    g.Write cfg = .ok
      ({ g.gdiFile with Tracks := g.gdiFile.Tracks.map (expectedTrack cfg g.gdiFile.Count) },
        g.gdiFile.Tracks.map (expectedAction g cfg g.gdiFile.Count)) := by
  unfold Game.Write
  simp only [hred]
  unfold gdi.File.Copy
  rw [writeTracks_ok g cfg _ hf]
  simp [List.map_map, Function.comp]

theorem isRedump_counts (g : Game) (hv : g.isValid = none) (a r : Nat)
    (hc : redumpCounts g g.gdiFile.Tracks (0, 0) = .ok (a, r)) :
    g.isRedump = if 0 < r ∧ r < a then .error .inconsistentAudioTracks
      else .ok (r = a) := by
  unfold Game.isRedump
  simp only [hv, hc]

theorem zeroGame_readable : ∀ t ∈ zeroGame.gdiFile.Tracks, t.IsAudioTrack →
    ∃ bytes, zeroGame.files t.Name = some bytes ∧ 16 ≤ bytes.length := by
  intro t ht hta
  fin_cases ht
  · exact absurd hta (by decide)
  · exact ⟨List.replicate 529200 0, rfl, by rw [List.length_replicate]; norm_num⟩
  · exact absurd hta (by decide)

theorem zeroGame_isValid : zeroGame.isValid = none := by
  have e1 : zeroGame.files "track01.bin" = some (List.replicate 529200 0) := rfl
  have e2 : zeroGame.files "track02.raw" = some (List.replicate 529200 0) := rfl
  have e3 : zeroGame.files "track03.bin" = some (List.replicate 529200 0) := rfl
  unfold Game.isValid
  rw [if_neg (by decide)]
  show sizeCheck zeroGame (⟨1, 0, 4, 2352, "track01.bin", 0⟩ ::
    ⟨2, 756, 0, 2352, "track02.raw", 0⟩ :: ⟨3, 45000, 4, 2352, "track03.bin", 0⟩ :: []) = none
  simp only [sizeCheck, e1, e2, e3, List.length_replicate]
  norm_num [gdi.SectorSize]

theorem zeroGame_isRedump : zeroGame.isRedump = .ok true := by
  have hc := redumpCounts_ok zeroGame zeroGame.gdiFile.Tracks zeroGame_readable 0 0
  have hA : countAudio zeroGame.gdiFile.Tracks = 1 := by decide
  have hZ : countZero zeroGame zeroGame.gdiFile.Tracks = 1 := by decide
  rw [hA, hZ] at hc
  rw [isRedump_counts zeroGame zeroGame_isValid (0 + 1) (0 + 1) hc]
  norm_num

/-- Witness for C8: the three-track Data/Audio/Data game with starts 0,
756, 45000 is detected as redump-style and its converted layout carries
the audio track at start 756 + 150 = 906; track 3, a data track not past
track 3, is unchanged. -/
theorem c8_redump_conversion_witness :
    zeroGame.isRedump = .ok true ∧
      zeroGame.Write plainConfig = .ok
        ({ zeroGame.gdiFile with
            Tracks := zeroGame.gdiFile.Tracks.map
              (expectedTrack plainConfig zeroGame.gdiFile.Count) },
          zeroGame.gdiFile.Tracks.map
            (expectedAction zeroGame plainConfig zeroGame.gdiFile.Count)) ∧
      (zeroGame.gdiFile.Tracks.map fun t =>
        (expectedTrack plainConfig zeroGame.gdiFile.Count t).Start) = [0, 906, 45000] := by
  refine ⟨zeroGame_isRedump,
    c8_redump_conversion zeroGame plainConfig zeroGame_isRedump ?_, by decide⟩
  intro t ht
  fin_cases ht <;>
    exact ⟨List.replicate 529200 0, rfl, by rw [List.length_replicate]⟩

end dreamcast

namespace gdi

theorem natDigsAux_eq : ∀ (n fuel : Nat) (acc : List Char), n < fuel →
    natDigsAux fuel n acc = natDigs n ++ acc := by
  intro n
  induction n using Nat.strong_induction_on with
  | _ n ih =>
    intro fuel acc hf
    match fuel, hf with
    | fuel + 1, hf =>
      unfold natDigs
      unfold natDigsAux
      by_cases h10 : n < 10
      · simp [h10]
      · have hdiv : n / 10 < n := Nat.div_lt_self (by omega) (by omega)
        simp only [h10, if_false]
        rw [ih (n / 10) hdiv fuel _ (by omega), ih (n / 10) hdiv n _ (by omega)]
        simp [List.append_assoc]

theorem natDigs_lt {n : Nat} (h : n < 10) : natDigs n = [digitChar n] := by
  unfold natDigs natDigsAux
  simp [h]

theorem natDigs_ge {n : Nat} (h : ¬n < 10) :
    natDigs n = natDigs (n / 10) ++ [digitChar (n % 10)] := by
  show natDigsAux (n + 1) n [] = _
  unfold natDigsAux
  simp only [h, if_false]
  exact natDigsAux_eq (n / 10) n _ (by omega)

theorem natDigs_ne_nil (n : Nat) : natDigs n ≠ [] := by
  by_cases h : n < 10
  · rw [natDigs_lt h]; simp
  · rw [natDigs_ge h]; simp

theorem digitChar_toNat {d : Nat} (h : d < 10) : (digitChar d).toNat = 48 + d := by
  interval_cases d <;> decide

theorem isDigitCh_digitChar {d : Nat} (h : d < 10) : isDigitCh (digitChar d) = true := by
  interval_cases d <;> decide

theorem natDigs_digits (n : Nat) : ∀ c ∈ natDigs n, isDigitCh c = true := by
  induction n using Nat.strong_induction_on with
  | _ n ih =>
    by_cases h : n < 10
    · rw [natDigs_lt h]
      intro c hc
      simp at hc
      subst hc
      exact isDigitCh_digitChar h
    · rw [natDigs_ge h]
      intro c hc
      rw [List.mem_append] at hc
      rcases hc with hc | hc
      · exact ih (n / 10) (Nat.div_lt_self (by omega) (by omega)) c hc
      · simp at hc
        subst hc
        exact isDigitCh_digitChar (Nat.mod_lt n (by omega))

theorem foldl_natDigs (n : Nat) : ∀ a : Nat,
    List.foldl (fun a c => 10 * a + (c.toNat - 48)) a (natDigs n) =
      a * 10 ^ (natDigs n).length + n := by
  induction n using Nat.strong_induction_on with
  | _ n ih =>
    intro a
    by_cases h : n < 10
    · rw [natDigs_lt h]
      simp [List.foldl, digitChar_toNat h]
      omega
    · rw [natDigs_ge h]
      rw [List.foldl_append, ih (n / 10) (Nat.div_lt_self (by omega) (by omega)) a]
      simp [List.foldl, digitChar_toNat (Nat.mod_lt n (by omega))]
      have hmod : 10 * (n / 10) + n % 10 = n := by omega
      calc 10 * (a * 10 ^ (natDigs (n / 10)).length + n / 10) + n % 10
          = a * 10 ^ ((natDigs (n / 10)).length + 1) + (10 * (n / 10) + n % 10) := by
            rw [pow_succ]; ring
        _ = a * 10 ^ ((natDigs (n / 10)).length + 1) + n := by rw [hmod]

theorem parseDigs_natDigs (n : Nat) : parseDigs (natDigs n) = n := by
  unfold parseDigs
  rw [foldl_natDigs n 0]
  simp

theorem isDigitCh_facts {c : Char} (h : isDigitCh c = true) :
    c ≠ '-' ∧ c ≠ '+' ∧ c ≠ '"' ∧ goIsSpace c = false := by
  refine ⟨?_, ?_, ?_, ?_⟩
  · intro he; subst he; exact absurd h (by decide)
  · intro he; subst he; exact absurd h (by decide)
  · intro he; subst he; exact absurd h (by decide)
  · simp [isDigitCh] at h
    simp [goIsSpace]
    omega

theorem intChars_ne_nil (v : Int) : intChars v ≠ [] := by
  unfold intChars
  by_cases h : v < 0 <;> simp [h, natDigs_ne_nil]

theorem atoi_intChars (v : Int) (h1 : -(2 ^ 63) ≤ v) (h2 : v < 2 ^ 63) :
    atoi (intChars v) = some v := by
  by_cases hv : v < 0
  · have hChars : intChars v = '-' :: natDigs (-v).toNat := by
      unfold intChars
      simp [hv]
    have hcast : (((-v).toNat : Nat) : Int) = -v := Int.toNat_of_nonneg (by omega)
    rw [hChars]
    unfold atoi
    have hall : (natDigs (-v).toNat).all isDigitCh = true :=
      List.all_eq_true.mpr (natDigs_digits _)
    simp only [eq_self_iff_true, true_or, if_true, if_pos]
    rw [if_neg (by simp [natDigs_ne_nil, hall])]
    rw [parseDigs_natDigs, hcast, neg_neg]
    rw [if_neg (by omega)]
  · have hChars : intChars v = natDigs v.toNat := by
      unfold intChars
      simp [hv]
    have hcast : ((v.toNat : Nat) : Int) = v := Int.toNat_of_nonneg (by omega)
    obtain ⟨c, cs, hc⟩ := List.exists_cons_of_ne_nil (natDigs_ne_nil v.toNat)
    have hcdig : isDigitCh c = true := natDigs_digits v.toNat c (by rw [hc]; simp)
    obtain ⟨hm, hp, _, _⟩ := isDigitCh_facts hcdig
    have hall : (c :: cs).all isDigitCh = true := by
      rw [← hc]
      exact List.all_eq_true.mpr (natDigs_digits _)
    rw [hChars, hc]
    unfold atoi
    dsimp only
    have hni : ¬(c = '-' ∨ c = '+') := by push_neg; exact ⟨hm, hp⟩
    rw [if_neg hni]
    rw [if_neg (by simp [hall])]
    rw [if_neg hm]
    rw [← hc, parseDigs_natDigs, hcast]
    rw [if_neg (by omega)]

end gdi

namespace gdi

theorem padLeft_of_le {w : Nat} {s : List Char} (h : w ≤ s.length) : padLeft w s = s := by
  unfold padLeft
  have e : w - s.length = 0 := by omega
  rw [e]
  rfl

theorem trackLine_noPad (t : Track) : trackLine 1 1 t = trackLineNoPad t := by
  unfold trackLine trackLineNoPad
  rw [padLeft_of_le (List.length_pos.mpr (intChars_ne_nil t.Number)),
    padLeft_of_le (List.length_pos.mpr (intChars_ne_nil t.Start))]

theorem foldr_max_le {l : List Nat} {M : Nat} (h : ∀ x ∈ l, x ≤ M) :
    l.foldr max 0 ≤ M := by
  induction l with
  | nil => simp
  | cons x l ih =>
    simp only [List.foldr_cons]
    exact max_le (h x (by simp)) (ih fun y hy => h y (by simp [hy]))

theorem le_foldr_max {l : List Nat} {M : Nat} (hM : M ∈ l) : M ≤ l.foldr max 0 := by
  induction l with
  | nil => simp at hM
  | cons x l ih =>
    simp only [List.foldr_cons]
    rcases List.mem_cons.mp hM with rfl | hM2
    · exact le_max_left _ _
    · exact le_trans (ih hM2) (le_max_right _ _)

theorem foldr_max_eq {l : List Nat} {M : Nat} (hM : M ∈ l) (h : ∀ x ∈ l, x ≤ M) :
    l.foldr max 0 = M :=
  le_antisymm (foldr_max_le h) (le_foldr_max hM)

theorem getLastD_mem {α : Type} (l : List α) (h : l ≠ []) :
    ∀ d, l.getLastD d ∈ l := by
  induction l with
  | nil => exact absurd rfl h
  | cons x l ih =>
    intro d
    cases hl : l with
    | nil => simp [List.getLastD]
    | cons y l2 =>
      rw [List.getLastD_cons]
      subst hl
      exact List.mem_cons_of_mem x (ih (by simp) x)

theorem uintWidth_eq_length {v : Int} (h0 : 0 ≤ v) (h64 : v < 2 ^ 64) :
    uintWidth v = (intChars v).length := by
  unfold uintWidth intChars
  rw [Int.emod_eq_of_lt h0 (by omega)]
  simp [not_lt.mpr h0]

/-- C6 (counterexample): a valid four-track file whose last track start
(7) is narrower than track three's 45000 is not encoded with columns
aligned to the longest value of the column — the widths come from the
last track alone — and the last track does not hold the widest start. -/
theorem c6_column_alignment_counterexample :
    shortLastFile.validate = none ∧
      Int.land shortLastFile.Flags NoWhitespace = 0 ∧
      shortLastFile.MarshalText ≠
        .ok (if Int.land shortLastFile.Flags NoWhitespace ≠ 0 then
          marshalNoPadSpec shortLastFile else marshalAlignedSpec shortLastFile) ∧
      ¬((intChars (shortLastFile.Tracks.getD 2 defTrack).Start).length ≤
        (intChars (shortLastFile.Tracks.getLastD defTrack).Start).length) := by decide

/-- C6 (amended): `MarshalText` right-aligns the number and start columns
to the printed width of the last track's values (not padded at all under
the whitespace-trimming flag); this coincides with the width of the
longest value of each column exactly when the last track holds the widest
values, which validation does not guarantee (starts need not increase). -/
theorem c6_column_alignment (f : File) (h : f.validate = none)
    (hwidest : ∀ t ∈ f.Tracks,
      (intChars t.Number).length ≤ (intChars (f.Tracks.getLastD defTrack).Number).length ∧
      (intChars t.Start).length ≤ (intChars (f.Tracks.getLastD defTrack).Start).length)
    (hlast : 0 ≤ (f.Tracks.getLastD defTrack).Number ∧
      (f.Tracks.getLastD defTrack).Number < 2 ^ 64 ∧
      0 ≤ (f.Tracks.getLastD defTrack).Start ∧
      (f.Tracks.getLastD defTrack).Start < 2 ^ 64) :
    f.MarshalText = .ok (if Int.land f.Flags NoWhitespace ≠ 0 then marshalNoPadSpec f
      else marshalAlignedSpec f) := by
  have hne : f.Tracks ≠ [] := by
    obtain ⟨c1, _, c3, _⟩ := validate_none_facts h
    intro he
    rw [he] at c3
    simp only [minTracks] at c1
    simp at c3
    omega
  unfold File.MarshalText
  simp only [h]
  by_cases htrim : Int.land f.Flags NoWhitespace ≠ 0
  · rw [if_pos htrim, if_pos htrim, if_pos htrim]
    unfold marshalBody marshalNoPadSpec
    simp [trackLine_noPad]
  · rw [if_neg htrim, if_neg htrim, if_neg htrim]
    have hN : colWidthNumber f = (intChars (f.Tracks.getLastD defTrack).Number).length := by
      apply foldr_max_eq
      · exact List.mem_map_of_mem _ (getLastD_mem f.Tracks hne defTrack)
      · intro x hx
        obtain ⟨t, ht, rfl⟩ := List.mem_map.mp hx
        exact (hwidest t ht).1
    have hS : colWidthStart f = (intChars (f.Tracks.getLastD defTrack).Start).length := by
      apply foldr_max_eq
      · exact List.mem_map_of_mem _ (getLastD_mem f.Tracks hne defTrack)
      · intro x hx
        obtain ⟨t, ht, rfl⟩ := List.mem_map.mp hx
        exact (hwidest t ht).2
    unfold marshalAlignedSpec
    rw [hN, hS, uintWidth_eq_length hlast.1 hlast.2.1,
      uintWidth_eq_length hlast.2.2.1 hlast.2.2.2]

/-- Witness for C6: the canonical three-track file (last track widest in
both columns) is marshalled with its columns aligned, matching the
repository's own example output byte for byte. -/
theorem c6_column_alignment_witness :
    validThree.validate = none ∧
      validThree.MarshalText = .ok (if Int.land validThree.Flags NoWhitespace ≠ 0
        then marshalNoPadSpec validThree else marshalAlignedSpec validThree) ∧
      marshalAlignedSpec validThree = ("3\n1     0 4 2352 track01.bin 0\n" ++
        "2   756 0 2352 track02.raw 0\n3 45000 4 2352 track03.bin 0\n").data :=
  ⟨by decide, c6_column_alignment validThree (by decide) (by decide) (by decide), by decide⟩

end gdi

namespace gdi

theorem goIsSpace_ne_quote {c : Char} (h : goIsSpace c = true) : c ≠ '"' := by
  intro he
  subst he
  exact absurd h (by decide)

theorem fieldsRun_skip_spaces {sp rest : List Char} (h : ∀ c ∈ sp, goIsSpace c = true) :
    fieldsRun (sp ++ rest) false [] = fieldsRun rest false [] := by
  induction sp with
  | nil => rfl
  | cons c sp ih =>
    have hc : goIsSpace c = true := h c (by simp)
    have hnq : c ≠ '"' := goIsSpace_ne_quote hc
    show fieldsRun (c :: (sp ++ rest)) false [] = _
    conv_lhs => unfold fieldsRun
    rw [if_neg hnq]
    rw [if_pos (by simp [hc])]
    simp only [if_pos rfl, List.nil_append]
    exact ih fun d hd => h d (by simp [hd])

theorem fieldsRun_absorb_plain {w : List Char}
    (h : ∀ c ∈ w, goIsSpace c = false ∧ c ≠ '"') :
    ∀ (rest acc : List Char),
      fieldsRun (w ++ rest) false acc = fieldsRun rest false (w.reverse ++ acc) := by
  induction w with
  | nil => intro rest acc; simp
  | cons c w ih =>
    intro rest acc
    obtain ⟨hcs, hcq⟩ := h c (by simp)
    show fieldsRun (c :: (w ++ rest)) false acc = _
    conv_lhs => unfold fieldsRun
    rw [if_neg hcq]
    rw [if_neg (by simp [hcs])]
    rw [ih (fun d hd => h d (by simp [hd])) rest (c :: acc)]
    simp

theorem fieldsRun_absorb_quoted {w : List Char} (h : ∀ c ∈ w, c ≠ '"') :
    ∀ (rest acc : List Char),
      fieldsRun (w ++ rest) true acc = fieldsRun rest true (w.reverse ++ acc) := by
  induction w with
  | nil => intro rest acc; simp
  | cons c w ih =>
    intro rest acc
    have hcq : c ≠ '"' := h c (by simp)
    show fieldsRun (c :: (w ++ rest)) true acc = _
    conv_lhs => unfold fieldsRun
    rw [if_neg hcq]
    rw [if_neg (by simp)]
    rw [ih (fun d hd => h d (by simp [hd])) rest (c :: acc)]
    simp

theorem fieldsRun_emit {rest acc : List Char} (hacc : acc ≠ []) :
    fieldsRun (' ' :: rest) false acc = acc.reverse :: fieldsRun rest false [] := by
  conv_lhs => unfold fieldsRun
  rw [if_neg (by decide : ¬(' ' = '"'))]
  rw [if_pos (by simp [goIsSpace])]
  rw [if_neg hacc]
  rfl

theorem fieldsRun_end {acc : List Char} (hacc : acc ≠ []) :
    fieldsRun [] false acc = [acc.reverse] := by
  conv_lhs => unfold fieldsRun
  rw [if_neg hacc]

theorem fieldsRun_word {w rest : List Char} (hw : w ≠ [])
    (h : ∀ c ∈ w, goIsSpace c = false ∧ c ≠ '"') :
    fieldsRun (w ++ ' ' :: rest) false [] = w :: fieldsRun rest false [] := by
  rw [fieldsRun_absorb_plain h]
  rw [List.append_nil]
  rw [fieldsRun_emit (by simpa using hw)]
  rw [List.reverse_reverse]

theorem fieldsRun_last_word {w : List Char} (hw : w ≠ [])
    (h : ∀ c ∈ w, goIsSpace c = false ∧ c ≠ '"') :
    fieldsRun w false [] = [w] := by
  have h2 := fieldsRun_absorb_plain h [] []
  rw [List.append_nil] at h2
  rw [h2, List.append_nil, fieldsRun_end (by simpa using hw), List.reverse_reverse]

theorem fieldsRun_quoted_word {inner rest : List Char} (h : ∀ c ∈ inner, c ≠ '"') :
    fieldsRun (('"' :: (inner ++ ['"'])) ++ ' ' :: rest) false [] =
      ('"' :: (inner ++ ['"'])) :: fieldsRun rest false [] := by
  show fieldsRun ('"' :: ((inner ++ ['"']) ++ ' ' :: rest)) false [] = _
  conv_lhs => unfold fieldsRun
  rw [if_pos rfl]
  rw [if_neg (by decide)]
  rw [List.append_assoc]
  show fieldsRun (inner ++ (['"'] ++ ' ' :: rest)) true ['"'] = _
  rw [fieldsRun_absorb_quoted h]
  show fieldsRun ('"' :: ' ' :: rest) true (inner.reverse ++ ['"']) = _
  conv_lhs => unfold fieldsRun
  rw [if_pos rfl]
  rw [if_neg (by decide)]
  show fieldsRun (' ' :: rest) false ('"' :: (inner.reverse ++ ['"'])) = _
  rw [fieldsRun_emit (by simp)]
  simp

end gdi

namespace gdi

theorem intChars_chars {v : Int} : ∀ c ∈ intChars v, c = '-' ∨ isDigitCh c = true := by
  unfold intChars
  by_cases h : v < 0 <;> simp [h]
  · intro c hc
    exact Or.inr (natDigs_digits _ c hc)
  · intro c hc
    exact Or.inr (natDigs_digits _ c hc)

theorem intChars_plain {v : Int} :
    ∀ c ∈ intChars v, goIsSpace c = false ∧ c ≠ '"' := by
  intro c hc
  rcases intChars_chars c hc with rfl | hd
  · exact ⟨by decide, by decide⟩
  · obtain ⟨_, _, hq, hs⟩ := isDigitCh_facts hd
    exact ⟨hs, hq⟩

/-- A name and its rendering: under `safeName` with no space the rendering
is the raw name; with a space it is the quoted form. -/
theorem quoteName_plain {s : String} (hs : safeName s)
    (hns : s.data.contains ' ' = false) :
    ∀ c ∈ quoteName s, goIsSpace c = false ∧ c ≠ '"' := by
  intro c hc
  unfold quoteName at hc
  rw [hns] at hc
  simp at hc
  obtain ⟨_, hq, hw⟩ := hs
  constructor
  · by_contra hsp
    have h1 : goIsSpace c = true := by
      cases h2 : goIsSpace c
      · exact absurd h2 hsp
      · rfl
    have := hw c hc h1
    subst this
    have : (' ' :: []).contains ' ' = true := by decide
    rw [List.contains_eq_any_beq] at hns
    simp [List.any_eq_true] at hns
    exact hns _ hc rfl
  · intro he
    subst he
    exact hq hc

end gdi

namespace gdi

theorem qfold_no_quote {xs : List Char} (h : ∀ c ∈ xs, c ≠ '"') :
    ∀ b, xs.foldl (fun wq c => if c = '"' then !wq else wq) b = b := by
  induction xs with
  | nil => intro b; rfl
  | cons c cs ih =>
    intro b
    rw [List.foldl_cons, if_neg (h c (by simp))]
    exact ih (fun d hd => h d (by simp [hd])) b

theorem quoteState_no_quote {xs : List Char} (h : ∀ c ∈ xs, c ≠ '"') :
    quoteState xs = false := qfold_no_quote h false

theorem quoteState_cons_ne {c : Char} {xs : List Char} (h : c ≠ '"') :
    quoteState (c :: xs) = quoteState xs := by
  unfold quoteState
  rw [List.foldl_cons, if_neg h]

theorem quoteState_append_no_quote {xs ys : List Char} (h : ∀ c ∈ xs, c ≠ '"') :
    quoteState (xs ++ ys) = quoteState ys := by
  unfold quoteState
  rw [List.foldl_append, qfold_no_quote h false]

theorem quoteState_name_append {s : String} {ys : List Char} (hs : safeName s) :
    quoteState (quoteName s ++ ys) = quoteState ys := by
  obtain ⟨hne, hq, hw⟩ := hs
  unfold quoteName
  by_cases hc : s.data.contains ' '
  · rw [if_pos hc]
    show quoteState ('"' :: ((s.data ++ ['"']) ++ ys)) = _
    unfold quoteState
    rw [List.foldl_cons, if_pos rfl]
    rw [List.append_assoc, List.foldl_append]
    rw [qfold_no_quote (fun d hd he => hq (he ▸ hd))]
    rw [List.foldl_append]
    have hstep : ∀ b : Bool,
        List.foldl (fun wq c => if c = '"' then !wq else wq) b ['"'] = !b := by
      intro b
      rw [List.foldl_cons, if_pos rfl]
      rfl
    rw [hstep, Bool.not_not]
  · rw [if_neg hc]
    exact quoteState_append_no_quote fun d hd he => hq (he ▸ hd)

theorem padLeft_no_quote {w : Nat} {v : Int} :
    ∀ c ∈ padLeft w (intChars v), c ≠ '"' := by
  intro c hc
  unfold padLeft at hc
  rw [List.mem_append] at hc
  rcases hc with hc | hc
  · rw [List.eq_of_mem_replicate hc]
    decide
  · exact (intChars_plain c hc).2

end gdi

namespace gdi

theorem replicate_spaces (k : Nat) : ∀ c ∈ List.replicate k ' ', goIsSpace c = true := by
  intro c hc
  rw [List.eq_of_mem_replicate hc]
  decide

theorem quoteName_ne_nil {s : String} (hs : safeName s) : quoteName s ≠ [] := by
  unfold quoteName
  by_cases hc : s.data.contains ' '
  · rw [if_pos hc]
    simp
  · rw [if_neg hc]
    exact hs.1

theorem fieldsRun_trackLine (nw sw : Nat) (t : Track) (hs : safeName t.Name) :
    fieldsRun (trackLine nw sw t) false [] =
      [intChars t.Number, intChars t.Start, intChars t.«Type»,
        intChars t.SectorSize, quoteName t.Name, intChars t.Zero] := by
  unfold trackLine padLeft
  rw [List.append_assoc]
  rw [fieldsRun_skip_spaces (replicate_spaces _)]
  rw [fieldsRun_word (intChars_ne_nil _) intChars_plain]
  rw [List.append_assoc]
  rw [fieldsRun_skip_spaces (replicate_spaces _)]
  rw [fieldsRun_word (intChars_ne_nil _) intChars_plain]
  rw [fieldsRun_word (intChars_ne_nil _) intChars_plain]
  rw [fieldsRun_word (intChars_ne_nil _) intChars_plain]
  by_cases hc : t.Name.data.contains ' '
  · have hq : quoteName t.Name = '"' :: (t.Name.data ++ ['"']) := by
      unfold quoteName
      rw [if_pos hc]
    rw [hq]
    rw [fieldsRun_quoted_word (fun d hd he => hs.2.1 (he ▸ hd))]
    rw [fieldsRun_last_word (intChars_ne_nil _) intChars_plain]
  · have hq : quoteName t.Name = t.Name.data := by
      unfold quoteName
      rw [if_neg hc]
    have hplain : ∀ c ∈ t.Name.data, goIsSpace c = false ∧ c ≠ '"' := by
      have := quoteName_plain hs (by simpa using hc)
      rw [hq] at this
      exact this
    rw [hq]
    rw [fieldsRun_word hs.1 hplain]
    rw [fieldsRun_last_word (intChars_ne_nil _) intChars_plain]

end gdi

namespace gdi

theorem intChars_no_quote {v : Int} : ∀ c ∈ intChars v, c ≠ '"' :=
  fun c hc => (intChars_plain c hc).2

theorem replicate_no_quote {k : Nat} : ∀ c ∈ List.replicate k ' ', c ≠ '"' := by
  intro c hc
  rw [List.eq_of_mem_replicate hc]
  decide

theorem quoteState_trackLine (nw sw : Nat) (t : Track) (hs : safeName t.Name) :
    quoteState (trackLine nw sw t) = false := by
  unfold trackLine padLeft
  rw [List.append_assoc, quoteState_append_no_quote replicate_no_quote,
    quoteState_append_no_quote intChars_no_quote,
    quoteState_cons_ne (by decide),
    List.append_assoc, quoteState_append_no_quote replicate_no_quote,
    quoteState_append_no_quote intChars_no_quote,
    quoteState_cons_ne (by decide),
    quoteState_append_no_quote intChars_no_quote,
    quoteState_cons_ne (by decide),
    quoteState_append_no_quote intChars_no_quote,
    quoteState_cons_ne (by decide),
    quoteState_name_append hs,
    quoteState_cons_ne (by decide)]
  exact quoteState_no_quote intChars_no_quote

theorem split_trackLine (nw sw : Nat) (t : Track) (hs : safeName t.Name) :
    split (trackLine nw sw t) =
      .ok [intChars t.Number, intChars t.Start, intChars t.«Type»,
        intChars t.SectorSize, quoteName t.Name, intChars t.Zero] := by
  unfold split
  rw [quoteState_trackLine nw sw t hs, fieldsRun_trackLine nw sw t hs]
  rw [if_neg (by simp)]

theorem dropWhile_no_quote {m : List Char} (hm : ∀ c ∈ m, c ≠ '"') :
    m.dropWhile (· = '"') = m := by
  cases m with
  | nil => rfl
  | cons c cs =>
    rw [List.dropWhile_cons, if_neg (by simp [hm c (by simp)])]

theorem trimQuotes_no_quote {l : List Char} (h : ∀ c ∈ l, c ≠ '"') : trimQuotes l = l := by
  unfold trimQuotes
  rw [dropWhile_no_quote h]
  rw [dropWhile_no_quote (by intro c hc; exact h c (List.mem_reverse.mp hc))]
  exact List.reverse_reverse l

theorem trimQuotes_quoted {inner : List Char} (h : ∀ c ∈ inner, c ≠ '"')
    (hne : inner ≠ []) : trimQuotes ('"' :: (inner ++ ['"'])) = inner := by
  unfold trimQuotes
  rw [List.dropWhile_cons, if_pos (by simp)]
  obtain ⟨c, cs, rfl⟩ := List.exists_cons_of_ne_nil hne
  rw [show ((c :: cs) ++ ['"'] : List Char).dropWhile (· = '"') = (c :: cs) ++ ['"'] by
    rw [List.cons_append, List.dropWhile_cons, if_neg (by simp [h c (by simp)])]]
  rw [show ((c :: cs) ++ ['"'] : List Char).reverse = '"' :: (c :: cs).reverse by
    rw [List.reverse_append]
    rfl]
  rw [List.dropWhile_cons, if_pos (by simp)]
  rw [dropWhile_no_quote (by
    intro d hd
    exact h d (List.mem_reverse.mp hd))]
  exact List.reverse_reverse _

theorem trimQuotes_quoteName {s : String} (hs : safeName s) :
    trimQuotes (quoteName s) = s.data := by
  unfold quoteName
  by_cases hc : s.data.contains ' '
  · rw [if_pos hc]
    exact trimQuotes_quoted (fun d hd he => hs.2.1 (he ▸ hd)) hs.1
  · rw [if_neg hc]
    exact trimQuotes_no_quote fun d hd he => hs.2.1 (he ▸ hd)

end gdi

namespace gdi

theorem string_mk_data (s : String) : String.mk s.data = s := rfl

theorem parseTrackLine_trackLine {t : Track} (nw sw : Nat) (hs : safeName t.Name)
    (hN : inInt64 t.Number) (hS : inInt64 t.Start) (hT : inInt64 t.«Type»)
    (hSS : inInt64 t.SectorSize) (hZ : inInt64 t.Zero) :
    parseTrackLine (trackLine nw sw t) = .ok t := by
  unfold parseTrackLine
  rw [split_trackLine nw sw t hs]
  simp only [atoi_intChars t.Number hN.1 hN.2, atoi_intChars t.Start hS.1 hS.2,
    atoi_intChars t.«Type» hT.1 hT.2, atoi_intChars t.SectorSize hSS.1 hSS.2,
    atoi_intChars t.Zero hZ.1 hZ.2, trimQuotes_quoteName hs]

end gdi

namespace gdi

theorem notSpace_ne_ctrl {c : Char} (h : goIsSpace c = false) :
    c ≠ '\n' ∧ c ≠ '\x0d' := by
  constructor <;> intro he <;> subst he <;> exact absurd h (by decide)

theorem safe_data_ne_ctrl {s : String} (hs : safeName s) :
    ∀ c ∈ s.data, c ≠ '\n' ∧ c ≠ '\x0d' := by
  intro c hc
  cases hg : goIsSpace c with
  | false => exact notSpace_ne_ctrl hg
  | true =>
    have := hs.2.2 c hc hg
    subst this
    exact ⟨by decide, by decide⟩

theorem quoteName_ne_ctrl {s : String} (hs : safeName s) :
    ∀ c ∈ quoteName s, c ≠ '\n' ∧ c ≠ '\x0d' := by
  intro c hc
  unfold quoteName at hc
  by_cases hcs : s.data.contains ' '
  · rw [if_pos hcs] at hc
    rcases List.mem_cons.mp hc with rfl | hc2
    · exact ⟨by decide, by decide⟩
    · rcases List.mem_append.mp hc2 with hc3 | hc3
      · exact safe_data_ne_ctrl hs c hc3
      · simp at hc3
        subst hc3
        exact ⟨by decide, by decide⟩
  · rw [if_neg hcs] at hc
    exact safe_data_ne_ctrl hs c hc

theorem intChars_ne_ctrl {v : Int} : ∀ c ∈ intChars v, c ≠ '\n' ∧ c ≠ '\x0d' := by
  intro c hc
  rcases intChars_chars c hc with rfl | hd
  · exact ⟨by decide, by decide⟩
  · exact notSpace_ne_ctrl (isDigitCh_facts hd).2.2.2

theorem trackLine_ne_ctrl {nw sw : Nat} {t : Track} (hs : safeName t.Name) :
    ∀ c ∈ trackLine nw sw t, c ≠ '\n' ∧ c ≠ '\x0d' := by
  intro c hc
  have hcases : c = ' ' ∨ c ∈ intChars t.Number ∨ c ∈ intChars t.Start ∨
      c ∈ intChars t.«Type» ∨ c ∈ intChars t.SectorSize ∨
      c ∈ quoteName t.Name ∨ c ∈ intChars t.Zero := by
    simp only [trackLine, padLeft, List.mem_append, List.mem_cons,
      List.mem_replicate] at hc
    tauto
  rcases hcases with rfl | h1 | h1 | h1 | h1 | h1 | h1
  · exact ⟨by decide, by decide⟩
  · exact intChars_ne_ctrl c h1
  · exact intChars_ne_ctrl c h1
  · exact intChars_ne_ctrl c h1
  · exact intChars_ne_ctrl c h1
  · exact quoteName_ne_ctrl hs c h1
  · exact intChars_ne_ctrl c h1

end gdi

namespace gdi

theorem splitNl_line {l rest : List Char} (h : '\n' ∉ l) :
    splitNl (l ++ '\n' :: rest) = l :: splitNl rest := by
  induction l with
  | nil =>
    show splitNl ('\n' :: rest) = [] :: splitNl rest
    conv_lhs => unfold splitNl
    rw [if_pos rfl]
  | cons c l ih =>
    have hc : c ≠ '\n' := fun he => h (by simp [he])
    show splitNl (c :: (l ++ '\n' :: rest)) = _
    conv_lhs => unfold splitNl
    rw [if_neg hc]
    rw [ih fun hm => h (by simp [hm])]

theorem splitNl_flatten {lines : List (List Char)} (h : ∀ l ∈ lines, '\n' ∉ l) :
    splitNl ((lines.map (· ++ ['\n'])).flatten) = lines ++ [[]] := by
  induction lines with
  | nil => rfl
  | cons l ls ih =>
    rw [List.map_cons, List.flatten_cons, List.append_assoc, List.singleton_append]
    rw [splitNl_line (h l (by simp))]
    rw [ih fun m hm => h m (by simp [hm])]
    rfl

theorem getLast?_ne_of_all {l : List Char} {a : Char} (h : ∀ c ∈ l, c ≠ a) :
    l.getLast? ≠ some a := by
  cases hl : l.getLast? with
  | none => simp
  | some b =>
    have hb : b ∈ l := List.mem_of_mem_getLast? hl
    simp [h b hb]

theorem scanLines_flatten {lines : List (List Char)}
    (h : ∀ l ∈ lines, '\n' ∉ l ∧ l.getLast? ≠ some '\x0d') :
    scanLines ((lines.map (· ++ ['\n'])).flatten) = lines := by
  unfold scanLines
  rw [splitNl_flatten fun l hl => (h l hl).1]
  show List.map dropCR (if (lines ++ [[]]).getLast? = some [] then
    (lines ++ [[]]).dropLast else lines ++ [[]]) = lines
  rw [List.getLast?_concat]
  rw [if_pos rfl]
  rw [List.dropLast_concat]
  have : ∀ l ∈ lines, dropCR l = l := by
    intro l hl
    unfold dropCR
    rw [if_neg (h l hl).2]
  calc lines.map dropCR = lines.map id := List.map_congr_left this
    _ = lines := List.map_id lines

theorem atoi_natDigs (n : Nat) (hn : (n : Int) < 2 ^ 63) :
    atoi (natDigs n) = some (n : Int) := by
  have h2 := atoi_intChars (n : Int) (by omega) hn
  unfold intChars at h2
  rw [if_neg (by omega)] at h2
  simpa using h2

theorem parsedTracks_map {nw sw : Nat} {ts : List Track}
    (h : ∀ t ∈ ts, safeName t.Name ∧ inInt64 t.Number ∧ inInt64 t.Start ∧
      inInt64 t.«Type» ∧ inInt64 t.SectorSize ∧ inInt64 t.Zero) :
    parsedTracks (ts.map (trackLine nw sw)) = some ts := by
  induction ts with
  | nil => rfl
  | cons t ts ih =>
    obtain ⟨hs, hN, hS, hT, hSS, hZ⟩ := h t (by simp)
    rw [List.map_cons]
    conv_lhs => unfold parsedTracks
    rw [parseTrackLine_trackLine nw sw hs hN hS hT hSS hZ]
    rw [ih fun u hu => h u (by simp [hu])]
    rfl

end gdi

namespace gdi

/-- C1 (corrected): for a TrackList that passes structural validation,
encoding with MarshalText and decoding with UnmarshalText recovers the
original Count and Tracks (Flags comes back as zero), for every choice of
the whitespace-trimming flag — provided additionally that every track
name is nonempty, contains no double quote, and uses no whitespace other
than plain spaces, and that each track's Start and Type fit in int64 (in
Go these are `int` values, so the range bounds hold automatically). -/
theorem c1_round_trip (f : File) (h : f.validate = none)
    (hnames : ∀ t ∈ f.Tracks, safeName t.Name)
    (hvals : ∀ t ∈ f.Tracks, inInt64 t.Start ∧ inInt64 t.«Type») :
    roundTrip f = some ⟨f.Count, f.Tracks, 0⟩ := by
  obtain ⟨hmin, hmax, hlen, htr⟩ := validate_none_facts h
  have hpow : (2 : Int) ^ 63 = 9223372036854775808 := by norm_num
  have hall : ∀ t ∈ f.Tracks, safeName t.Name ∧ inInt64 t.Number ∧ inInt64 t.Start ∧
      inInt64 t.«Type» ∧ inInt64 t.SectorSize ∧ inInt64 t.Zero := by
    intro t ht
    obtain ⟨j, hj, hget⟩ := List.getElem_of_mem ht
    have hvt := htr j hj
    rw [List.getD_eq_getElem?_getD, List.getElem?_eq_getElem hj] at hvt
    simp only [Option.getD_some] at hvt
    rw [hget] at hvt
    obtain ⟨_, _, _, hnum, hss, hz⟩ := (validateTrack_none_iff j t).mp hvt
    have hjlen : (j : Int) < (f.Tracks.length : Int) := by exact_mod_cast hj
    simp only [maxTracks] at hmax
    refine ⟨hnames t ht, ?_, (hvals t ht).1, (hvals t ht).2, ?_, ?_⟩
    · unfold inInt64
      rw [hnum]
      omega
    · unfold inInt64
      rw [hss]
      unfold SectorSize
      omega
    · unfold inInt64
      rw [hz]
      omega
  have hlenbound : (f.Tracks.length : Int) < 2 ^ 63 := by
    simp only [maxTracks] at hmax
    omega
  have hlines : ∀ (nw sw : Nat), ∀ l ∈ natDigs f.Tracks.length ::
      f.Tracks.map (trackLine nw sw), '\n' ∉ l ∧ l.getLast? ≠ some '\x0d' := by
    intro nw sw l hl
    rcases List.mem_cons.mp hl with rfl | hl2
    · have hctrl : ∀ c ∈ natDigs f.Tracks.length, c ≠ '\n' ∧ c ≠ '\x0d' :=
        fun c hc => notSpace_ne_ctrl
          (isDigitCh_facts (natDigs_digits f.Tracks.length c hc)).2.2.2
      exact ⟨fun hmem => (hctrl _ hmem).1 rfl,
        getLast?_ne_of_all fun c hc => (hctrl c hc).2⟩
    · obtain ⟨t, ht, rfl⟩ := List.mem_map.mp hl2
      have hctrl := @trackLine_ne_ctrl nw sw t (hnames t ht)
      exact ⟨fun hmem => (hctrl _ hmem).1 rfl,
        getLast?_ne_of_all fun c hc => (hctrl c hc).2⟩
  have hbody : ∀ nw sw : Nat, marshalBody nw sw f =
      ((natDigs f.Tracks.length :: f.Tracks.map (trackLine nw sw)).map
        (· ++ ['\n'])).flatten := by
    intro nw sw
    unfold marshalBody
    rw [List.map_cons, List.flatten_cons, List.map_map]
    rfl
  have hunm : ∀ nw sw : Nat,
      File.UnmarshalText (marshalBody nw sw f) = (⟨f.Count, f.Tracks, 0⟩, none) := by
    intro nw sw
    rw [hbody nw sw]
    unfold File.UnmarshalText
    rw [scanLines_flatten (hlines nw sw)]
    dsimp only
    rw [atoi_natDigs f.Tracks.length hlenbound]
    dsimp only
    rw [unmarshalTracks_parsed (@parsedTracks_map nw sw _ hall)]
    simp only [List.nil_append]
    rw [hlen]
    have hval0 : File.validate ⟨f.Count, f.Tracks, 0⟩ = none := by
      rw [show File.validate ⟨f.Count, f.Tracks, 0⟩ = f.validate from rfl]
      exact h
    rw [hval0]
  unfold roundTrip
  unfold File.MarshalText
  simp only [h]
  rw [hunm]
/-- C1 counterexample: a structurally valid file whose first track name is
a lone double quote marshals successfully, but the quote toggles the field
scanner's quoting state, so the re-parse fails: the round trip is not
guaranteed by validity alone. -/
theorem c1_round_trip_counterexample :
    quoteNameFile.validate = none ∧ roundTrip quoteNameFile = none := by
  decide

theorem c1_round_trip_witness :
    validThree.validate = none ∧
      roundTrip validThree = some ⟨validThree.Count, validThree.Tracks, 0⟩ :=
  ⟨by decide,
    c1_round_trip validThree (by decide)
      (by intro t ht; fin_cases ht <;> exact ⟨by decide, by decide, by decide⟩)
      (by intro t ht; fin_cases ht <;> exact ⟨by unfold inInt64; decide,
        by unfold inInt64; decide⟩)⟩

end gdi
